import Mathlib

/-!
# Verification of the Dalya Amazon deal-bot pipeline

A shallow embedding of `clean_keyword_deal_bot.py` and the caching layer of
`app.py`, together with proofs settling the frozen claims about the system.

Python strings are modelled as `List Char` (`Str`).  The model is byte-accurate
for ASCII text; where percent-encoding of non-ASCII characters matters the
theorems carry ASCII hypotheses.  Network effects (HTTP fetches, redirect
resolution, the Rainforest API) are modelled as oracle functions bundled in an
`Env` record: the code absorbs every network failure, and the oracle covers the
failure outcome with `none` (or, for redirect resolution, with the identity,
matching the `except: pass` path of `requests.head`).
-/

set_option maxHeartbeats 1000000
set_option maxRecDepth 10000

abbrev Str := List Char

/-- Python `str.lower()` restricted to ASCII (the code only compares ASCII
host names and keywords). -/
def lowerStr (s : Str) : Str := s.map Char.toLower

/-- `startsWithL pre s` is true when `pre` is an initial segment of `s`. -/
def startsWithL : Str → Str → Bool
  | [], _ => true
  | _ :: _, [] => false
  | p :: ps, c :: cs => p == c && startsWithL ps cs

/-- Python substring containment `needle in hay`. -/
def containsSub (needle : Str) : Str → Bool
  | [] => startsWithL needle []
  | c :: cs => startsWithL needle (c :: cs) || containsSub needle cs

/-- Python `s.endswith(suf)`. -/
def endsWithL (suf s : Str) : Bool := startsWithL suf.reverse s.reverse

/-- Python `s.split(sep)` for a single-character separator: empty fields are
kept, and the empty string splits to `[""]`. -/
def splitOnChar (sep : Char) : Str → List Str
  | [] => [[]]
  | c :: xs =>
    match splitOnChar sep xs with
    | [] => [[c]]
    | r :: rs => if c == sep then [] :: r :: rs else (c :: r) :: rs

/-- Joins pieces with a single-character separator (inverse of `splitOnChar`
on separator-free pieces). -/
def intercalateChar (c : Char) : List Str → Str
  | [] => []
  | [s] => s
  | s :: rest => s ++ c :: intercalateChar c rest

/-- Splits `s` at the first occurrence of `c` (the occurrence is dropped);
`none` when `c` does not occur.  Models Python `s.split(c, 1)` /
`s.find(c)`-based splitting. -/
def breakOnFirst (c : Char) : Str → Option (Str × Str)
  | [] => none
  | x :: xs =>
    if x == c then some ([], xs)
    else (breakOnFirst c xs).map (fun p => (x :: p.1, p.2))

/-- Python `s.strip()` (whitespace from both ends). -/
def pyStrip (s : Str) : Str :=
  ((s.dropWhile Char.isWhitespace).reverse.dropWhile Char.isWhitespace).reverse

/-- Drops the maximal trailing run of characters satisfying `p`. -/
def dropTrailing (p : Char → Bool) (s : Str) : Str :=
  (s.reverse.dropWhile p).reverse

/-! ## Percent-encoding (`urllib.parse.quote_plus` / `unquote` / `unquote_plus`) -/

def hexVal (c : Char) : Option Nat :=
  if 48 ≤ c.toNat ∧ c.toNat ≤ 57 then some (c.toNat - 48)
  else if 97 ≤ c.toNat ∧ c.toNat ≤ 102 then some (c.toNat - 87)
  else if 65 ≤ c.toNat ∧ c.toNat ≤ 70 then some (c.toNat - 55)
  else none

/-- Python `urllib.parse.unquote`: decode `%XX` byte escapes.  Python decodes
the resulting byte string as UTF-8; the model maps each byte directly to the
character with that code, which agrees with Python on ASCII bytes (the only
bytes the theorems quantify over). -/
def pyUnquote : Str → Str
  | [] => []
  | '%' :: h1 :: h2 :: rest =>
    match hexVal h1, hexVal h2 with
    | some a, some b => Char.ofNat (16 * a + b) :: pyUnquote rest
    | _, _ => '%' :: pyUnquote (h1 :: h2 :: rest)
  | c :: rest => c :: pyUnquote rest

def plusToSpace (s : Str) : Str := s.map (fun c => if c == '+' then ' ' else c)

/-- Python `urllib.parse.unquote_plus`: `+` becomes a space, then `%XX`
escapes are decoded. -/
def pyUnquotePlus (s : Str) : Str := pyUnquote (plusToSpace s)

/-- The characters `urllib.parse.quote` never escapes (`always_safe`), with
the empty `safe` parameter used by `urlencode` and `quote_plus`. -/
def isSafeChar (c : Char) : Bool :=
  c.isAlphanum || c == '_' || c == '.' || c == '-' || c == '~'

/-- Uppercase hex digit of `n < 16`. -/
def hexDigitU (n : Nat) : Char :=
  if n < 10 then Char.ofNat (48 + n) else Char.ofNat (55 + n)

/-- UTF-8 bytes of a code point (as in CPython's `quote`). -/
def utf8Bytes (n : Nat) : List Nat :=
  if n < 128 then [n]
  else if n < 2048 then [192 + n / 64, 128 + n % 64]
  else if n < 65536 then [224 + n / 4096, 128 + (n / 64) % 64, 128 + n % 64]
  else [240 + n / 262144, 128 + (n / 4096) % 64, 128 + (n / 64) % 64, 128 + n % 64]

def quotePlusChar (c : Char) : Str :=
  if isSafeChar c then [c]
  else if c == ' ' then ['+']
  else (utf8Bytes c.toNat).flatMap (fun b => ['%', hexDigitU (b / 16), hexDigitU (b % 16)])

/-- Python `urllib.parse.quote_plus(s, safe=..., default)` as used by
`urlencode` (empty `safe` set): safe characters pass through, space becomes
`+`, everything else is `%XX`-escaped (UTF-8 bytes, uppercase hex). -/
def quotePlus (s : Str) : Str := s.flatMap quotePlusChar

/-! ## URL parsing (`urllib.parse.urlparse` / `urlunparse`)

The code uses `urlparse`/`urlunparse` only through the fields `netloc`
(`parts[1]`), `query` (`parts[4]`) and the round-trip `urlunparse(parts)`
with a replaced query.  The `params` component (the `;`-suffix of the last
path segment) is never inspected separately and `urlunparse` re-joins it with
`;` verbatim, so the model keeps path and params together in one `pathsec`
component.  (The only divergence from CPython is a path whose last segment
ends in a bare `;`, which CPython's round trip drops; no claim depends on
such URLs.) -/

structure UrlParts where
  scheme : Str
  netloc : Str
  pathsec : Str
  query : Str
  fragment : Str
deriving DecidableEq, Repr

def isSchemeChar (c : Char) : Bool :=
  c.isAlpha || c.isDigit || c == '+' || c == '-' || c == '.'

/-- The scheme-recognition step of CPython `urlsplit`: a leading
`alpha (alpha|digit|+|-|.)* :` is split off and lowercased. -/
def parseScheme (url : Str) : Option Str × Str :=
  match breakOnFirst ':' url with
  | none => (none, url)
  | some (pre, post) =>
    match pre with
    | [] => (none, url)
    | c :: _ =>
      if c.isAlpha && pre.all isSchemeChar then (some (lowerStr pre), post)
      else (none, url)

def notNetlocEnd (c : Char) : Bool := !(c == '/' || c == '?' || c == '#')

/-- CPython `urlsplit` (with path and params kept together, see above):
scheme, then `//netloc` up to the first of `/?#`, then the fragment after the
first `#`, then the query after the first `?`. -/
def urlsplitM (url : Str) : UrlParts :=
  let sp := parseScheme url
  let scheme := sp.1.getD []
  let rest := sp.2
  let netloc := if startsWithL ['/', '/'] rest then (rest.drop 2).takeWhile notNetlocEnd else []
  let rest2 := if startsWithL ['/', '/'] rest then (rest.drop 2).dropWhile notNetlocEnd else rest
  let beforeFrag := match breakOnFirst '#' rest2 with
    | some p => p.1
    | none => rest2
  let fragment := match breakOnFirst '#' rest2 with
    | some p => p.2
    | none => []
  let pathsec := match breakOnFirst '?' beforeFrag with
    | some p => p.1
    | none => beforeFrag
  let query := match breakOnFirst '?' beforeFrag with
    | some p => p.2
    | none => []
  ⟨scheme, netloc, pathsec, query, fragment⟩

/-- CPython `urlunsplit` (= `urlunparse` with path/params pre-joined). -/
def urlunsplitM (p : UrlParts) : Str :=
  let u1 :=
    if !p.netloc.isEmpty || startsWithL ['/', '/'] p.pathsec then
      ('/' :: '/' :: p.netloc) ++
        (if !p.pathsec.isEmpty && !startsWithL ['/'] p.pathsec then '/' :: p.pathsec else p.pathsec)
    else p.pathsec
  let u2 := if !p.scheme.isEmpty then p.scheme ++ ':' :: u1 else u1
  let u3 := if !p.query.isEmpty then u2 ++ '?' :: p.query else u2
  if !p.fragment.isEmpty then u3 ++ '#' :: p.fragment else u3

/-! ## Query strings (`parse_qs` with `keep_blank_values=False`, `urlencode(doseq=True)`) -/

/-- An ordered association of decoded keys to value lists, modelling the
`dict` returned by `parse_qs` (CPython dicts preserve insertion order). -/
abbrev QDict := List (Str × List Str)

/-- One `name=value` field of `parse_qsl(..., keep_blank_values=False)`:
fields without `=` and fields with an empty value are dropped. -/
def parsePiece (p : Str) : Option (Str × Str) :=
  if p.isEmpty then none
  else
    match breakOnFirst '=' p with
    | none => none
    | some (n, v) => if v.isEmpty then none else some (pyUnquotePlus n, pyUnquotePlus v)

def parseQsl (s : Str) : List (Str × Str) := (splitOnChar '&' s).filterMap parsePiece

/-- Appends a value under a key, preserving first-occurrence key order
(CPython dict insertion semantics used by `parse_qs`). -/
def qsInsert (d : QDict) (k : Str) (v : Str) : QDict :=
  match d with
  | [] => [(k, [v])]
  | (k0, vs) :: rest => if k0 = k then (k0, vs ++ [v]) :: rest else (k0, vs) :: qsInsert rest k v

def parseQs (s : Str) : QDict := (parseQsl s).foldl (fun d kv => qsInsert d kv.1 kv.2) []

/-- Python `qs.pop(k, None)`. -/
def qsPop (d : QDict) (k : Str) : QDict := d.filter (fun kv => kv.1 ≠ k)

/-- Python `qs[k] = v`: overwrite in place if present, append otherwise. -/
def qsSet (d : QDict) (k : Str) (v : List Str) : QDict :=
  match d with
  | [] => [(k, v)]
  | (k0, vs) :: rest => if k0 = k then (k0, v) :: rest else (k0, vs) :: qsSet rest k v

def qsLookup (d : QDict) (k : Str) : Option (List Str) :=
  match d with
  | [] => none
  | (k0, vs) :: rest => if k0 = k then some vs else qsLookup rest k

/-- Python `urlencode(qs, doseq=True)`: `quote_plus`-encoded `k=v` fields in
dict order, one per value, joined by `&`. -/
def urlencodeM (d : QDict) : Str :=
  intercalateChar '&'
    (d.flatMap (fun kv => kv.2.map (fun v => quotePlus kv.1 ++ '=' :: quotePlus v)))

/-! ## Constants of `clean_keyword_deal_bot.py` -/

def DEFAULT_TAG : Str := "2025050f-20".data

def PLACEHOLDER_IMG : Str :=
  ("data:image/svg+xml;base64,PHN2ZyB3aWR0aD0iMTYwIiBoZWlnaHQ9IjE2MCIgeG1sbnM9Imh0dHA6Ly93d3cudzMub3JnLzIwMDAvc3ZnIj48cmVjdCB3aWR0aD0iMTYwIiBoZWlnaHQ9IjE2MCIgZmlsbD0iI2Y1ZjVmNSIvPjx0ZXh0IHg9IjgwIiB5PSI4MCIgZm9udC1mYW1pbHk9IkFyaWFsIiBmb250LXNpemU9IjE0IiBmaWxsPSIjNjY2IiB0ZXh0LWFuY2hvcj0ibWlkZGxlIiBkb21pbmFudC1iYXNlbGluZT0ibWlkZGxlIj5ObyBJbWFnZTwvdGV4dD48L3N2Zz4=").data

def REDIRECT_HOSTS : List Str := ["slickdeals.net".data, "go.skimresources.com".data]

def JUNK_PARAMS : List Str :=
  ["ascsubtag".data, "ref".data, "psc".data, "crid".data, "qid".data, "sr".data]

/-! ## Link normalisation (`_extract_embedded_url`, `_normalize_amazon_link`,
`_build_amazon_search_link`) -/

def isRedirectHost (host : Str) : Bool := REDIRECT_HOSTS.any (fun h => containsSub h host)

/-- `_extract_embedded_url`: on a redirect-wrapper host, return the
URL-decoded `url=` (or `u=`) query parameter; otherwise pass through. -/
def extractEmbeddedUrl (url : Str) : Str :=
  let parts := urlsplitM url
  let host := lowerStr parts.netloc
  if isRedirectHost host then
    let qs := parseQs parts.query
    match qsLookup qs "url".data with
    | some vs => pyUnquote (vs.headD [])
    | none =>
      match qsLookup qs "u".data with
      | some vs => pyUnquote (vs.headD [])
      | none => url
  else url

/-- The host test of `_normalize_amazon_link` (line 58):
`".amazon." in host or host.endswith(".a.co")`. -/
def amazonHostOk (host : Str) : Bool :=
  containsSub ".amazon.".data host || endsWithL ".a.co".data host

/-- `_normalize_amazon_link` (lines 47-68).  `resolve` is the oracle for the
`requests.head(..., allow_redirects=True)` step; the `except
RequestException: pass` path is the oracle returning its argument unchanged.
`Except.error ()` models `raise ValueError("Not an Amazon link")`. -/
def normalizeAmazonLink (resolve : Str → Str) (rawUrl : Str) (tag : Str) : Except Unit Str :=
  let url := resolve (extractEmbeddedUrl rawUrl)
  let parts := urlsplitM url
  if amazonHostOk (lowerStr parts.netloc) then
    let qs0 := parseQs parts.query
    let qs1 := JUNK_PARAMS.foldl qsPop qs0
    let qs2 := qsSet qs1 "tag".data [tag]
    Except.ok (dropTrailing (fun c => c == '&' || c == '?')
      (urlunsplitM { parts with query := urlencodeM qs2 }))
  else Except.error ()

/-- `_build_amazon_search_link` (lines 72-75). -/
def buildAmazonSearchLink (titleOrKw tag : Str) : Str :=
  "https://www.amazon.com/s?k=".data ++ quotePlus (pyStrip titleOrKw) ++ "&tag=".data ++ tag

/-! ## ASIN extraction (`_extract_asin_from_url`) -/

/-- The five regex alternatives of `_extract_asin_from_url`, pre-lowercased
(the regexes are compiled with `re.IGNORECASE`). -/
def ASIN_PATTERNS : List Str :=
  ["/dp/".data, "/gp/product/".data, "/product/".data, "/asin/".data, "asin=".data]

def isAsinChar (c : Char) : Bool := c.isAlphanum

/-- `re.search` of one pattern `pre([A-Z0-9]{10})` with `re.IGNORECASE`:
slide over the string; at the first position where the lowercased text starts
with `pre` followed by ten alphanumerics, return those ten original
characters. -/
def scanAsin (pre : Str) : Str → Option Str
  | [] => none
  | c :: rest =>
    if startsWithL pre (lowerStr (c :: rest)) then
      let cand := ((c :: rest).drop pre.length).take 10
      if cand.length == 10 && cand.all isAsinChar then some cand else scanAsin pre rest
    else scanAsin pre rest

def firstAsin : List Str → Str → Option Str
  | [], _ => none
  | p :: ps, u =>
    match scanAsin p u with
    | some a => some a
    | none => firstAsin ps u

/-- `_extract_asin_from_url` (lines 113-126). -/
def extractAsin (url : Str) : Option Str := firstAsin ASIN_PATTERNS url

/-! ## Data model -/

structure Entry where
  title : Str
  link : Str
deriving DecidableEq, Repr

/-- A deal dict as built by `_process_deal` / the fallbacks: exactly the keys
`title`, `amazon_link`, `image`.  The optional `relevance_score` and `price`
fields model dict keys that consumers read with a default
(`x.get('relevance_score', 0)` in `app.py` line 78) but that no code path in
the repository ever writes: they are `none` everywhere. -/
structure Deal where
  title : Str
  amazon_link : Str
  image : Str
  relevance_score : Option ℚ := none
  price : Option ℚ := none
deriving DecidableEq, Repr

/-- The `x.get('relevance_score', 0)` read used by `update_top_deals_cache`
(`app.py` line 78). -/
def relevanceRead (d : Deal) : ℚ := d.relevance_score.getD 0

/-- The analogous defaulted read for a price key (never written, never read
in the code; the spec treats a missing price as 0 = unknown). -/
def priceRead (d : Deal) : ℚ := d.price.getD 0

/-- What `_process_deal` observes on an entry source page, after the
(out-of-scope, §6) BeautifulSoup scraping: the image found by
`_extract_image_from_slickdeals`; the href produced by the four
`amazon_selectors` (`some h` exactly when that loop broke with a truthy
href); and, for every `a`/`button` element in document order, the value of
`get('href') or get('data-href') or get('data-url')` (`none` for a falsy
result). -/
structure PageData where
  img : Option Str
  selHref : Option Str
  elems : List (Option Str)
deriving Repr

/-- The network/environment oracles of one pipeline run. -/
structure Env where
  /-- `requests.head(url, allow_redirects=True).url`; an exception is the
  identity on its argument. -/
  resolve : Str → Str
  /-- `requests.get(entry.link)` + scraping; `none` models the `except
  Exception` path of `_process_deal` (fetch failure). -/
  page : Str → Option PageData
  /-- `_get_amazon_product_image(asin)`; `none` on failure or no match. -/
  amazonImg : Str → Option Str
  /-- `_top_amazon_product` outcome: `none` when `RAINFOREST_KEY` is unset or
  the request fails, otherwise the first result's `(title, asin, image)`. -/
  rainforest : Option (Str × Str × Str)

/-- Python truthiness of an optional string (`None` and `""` are falsy). -/
def isTruthy : Option Str → Bool
  | some s => !s.isEmpty
  | none => false

/-- The condition of the fallback link loop (line 324):
`href and ('amazon' in href.lower() or 'amzn' in href.lower() or
'skimresources' in href.lower())`. -/
def hrefCond : Option Str → Bool
  | some s =>
    !s.isEmpty &&
      (containsSub "amazon".data (lowerStr s) || containsSub "amzn".data (lowerStr s) ||
        containsSub "skimresources".data (lowerStr s))
  | none => false

/-- The fallback loop over all `a`/`button` elements (lines 317-326): `href`
is overwritten on every iteration and the loop breaks on `hrefCond`; when no
element matches, `href` is left holding the LAST element's value (matched or
not) -- the loop variable leaks. -/
def fallbackScan : List (Option Str) → Option Str
  | [] => none
  | [v] => v
  | v :: rest => if hrefCond v then v else fallbackScan rest

/-- The href `_process_deal` ends up with: the selector-loop result if
truthy, otherwise the fallback-scan result. -/
def pageHref (pg : PageData) : Option Str :=
  if isTruthy pg.selHref then pg.selHref else fallbackScan pg.elems

/-- Python `img_url or PLACEHOLDER_IMG`. -/
def orPlaceholder (o : Option Str) : Str :=
  match o with
  | some i => if i.isEmpty then PLACEHOLDER_IMG else i
  | none => PLACEHOLDER_IMG

/-- `_process_deal` (lines 285-364): fetch the page, find an href, normalize
it; on `ValueError` fall back to a search link built from the entry title; if
no truthy href was found, return `None`. -/
def processDeal (env : Env) (tag : Str) (entry : Entry) : Option Deal :=
  match env.page entry.link with
  | none => none
  | some pg =>
    match pageHref pg with
    | none => none
    | some h =>
      if h.isEmpty then none
      else
        match normalizeAmazonLink env.resolve h tag with
        | Except.ok clean =>
          let imgA := if isTruthy pg.img then pg.img else none
          let imgB :=
            if imgA.isSome then imgA
            else
              match extractAsin clean with
              | some a => if isTruthy (env.amazonImg a) then env.amazonImg a else none
              | none => none
          some { title := entry.title, amazon_link := clean, image := orPlaceholder imgB }
        | Except.error _ =>
          some { title := entry.title, amazon_link := buildAmazonSearchLink entry.title tag,
                 image := orPlaceholder (if isTruthy pg.img then pg.img else none) }

/-! ## The aggregation pipeline (`get_amazon_affiliate_links`) -/

structure QueryResult where
  deals : List Deal
deriving DecidableEq, Repr

/-- The entry filter of `get_amazon_affiliate_links` (lines 387-390):
`keyword.lower() in entry.title.lower()`, truncated to the first
`max_results` matches in feed order. -/
def matchingEntries (feed : List Entry) (keyword : Str) (maxResults : Nat) : List Entry :=
  (feed.filter (fun e => containsSub (lowerStr keyword) (lowerStr e.title))).take maxResults

def apos : Char := Char.ofNat 39

/-- The Rainforest fallback deal (line 105): `{title, amazon_link:
https://www.amazon.com/dp/{asin}?tag={tag}, image}`. -/
def rainforestDeal (tag : Str) (r : Str × Str × Str) : Deal :=
  { title := r.1,
    amazon_link := "https://www.amazon.com/dp/".data ++ r.2.1 ++ "?tag=".data ++ tag,
    image := r.2.2 }

/-- The plain-search fallback deal (lines 415-419): title
`Amazon search for '<keyword>'`, search link, placeholder image. -/
def searchFallbackDeal (keyword tag : Str) : Deal :=
  { title := "Amazon search for ".data ++ apos :: (keyword ++ [apos]),
    amazon_link := buildAmazonSearchLink keyword tag,
    image := PLACEHOLDER_IMG }

/-- `get_amazon_affiliate_links` (lines 368-421).  `feed` is the parsed RSS
result for the query (a fetch failure is the empty list -- `feedparser` never
raises).  The `ThreadPoolExecutor`/`as_completed` stage collects deals in
completion order, which is nondeterministic; the model fixes the admissible
schedule in which deals complete in submission (= feed) order. -/
def getAmazonAffiliateLinks (env : Env) (feed : List Entry) (keyword tag : Str)
    (maxResults : Nat) : QueryResult :=
  let deals := (matchingEntries feed keyword maxResults).filterMap (processDeal env tag)
  if deals.isEmpty then
    match env.rainforest with
    | some r => ⟨[rainforestDeal tag r]⟩
    | none => ⟨[searchFallbackDeal keyword tag]⟩
  else ⟨deals⟩

/-! ## The result cache layer (`app.py` lines 26-47, 89-114) -/

abbrev CacheMap := Str → Option (Nat × QueryResult)

def CACHE_TIMEOUT : Nat := 3600

/-- `get_cached_search`: serve a fresh hit, evict an expired hit (returning
`None`), miss otherwise.  Time is in whole seconds. -/
def getCachedSearch (cache : CacheMap) (now : Nat) (kw : Str) :
    Option QueryResult × CacheMap :=
  match cache kw with
  | some tr =>
    if now - tr.1 < CACHE_TIMEOUT then (some tr.2, cache)
    else (none, fun k => if k = kw then none else cache k)
  | none => (none, cache)

/-- `set_cached_search`. -/
def setCachedSearch (cache : CacheMap) (now : Nat) (kw : Str) (r : QueryResult) : CacheMap :=
  fun k => if k = kw then some (now, r) else cache k

/-- `api_search` (`app.py` lines 89-114): strip the query, reject an empty
keyword (HTTP 400, modelled as `none`), serve a cached result or run the
pipeline and write through.  `pipeline` abstracts
`get_amazon_affiliate_links` under an unchanged upstream feed; the returned
`Bool` records whether the pipeline was invoked.  (The cached dict always
contains the key `deals`, so the Python truthiness test `if cached_result:`
is `isSome` here.) -/
def apiSearch (pipeline : Str → QueryResult) (cache : CacheMap) (now : Nat) (q : Str) :
    Option (QueryResult × Bool × CacheMap) :=
  let kw := pyStrip q
  if kw.isEmpty then none
  else
    match getCachedSearch cache now kw with
    | (some r, c) => some (r, false, c)
    | (none, c) => some (pipeline kw, true, setCachedSearch c now kw (pipeline kw))

/-- The stable descending sort of `update_top_deals_cache` (`app.py` line
78): `all_deals.sort(key=lambda x: x.get('relevance_score', 0),
reverse=True)`.  Python's sort is stable and `reverse=True` keeps the
original order of equal keys, which this insertion sort reproduces. -/
def insertDescBy (key : Deal → ℚ) (x : Deal) : List Deal → List Deal
  | [] => [x]
  | y :: ys => if key x < key y then y :: insertDescBy key x ys else x :: y :: ys

def pySortDescBy (key : Deal → ℚ) : List Deal → List Deal
  | [] => []
  | x :: xs => insertDescBy key x (pySortDescBy key xs)

/-! ## Spec-side definitions

These definitions follow the WORDS OF THE SPEC, not the source: they exist to
compare the claims against the code.  `specRankedPair`/`specRankedOk` is the
composite ranking order claimed in §4.4 step 4; `specBaseScore` is the §4.3
relevance score, which has no counterpart anywhere in the repository. -/

/-- The claimed tie-break signal: a non-placeholder image. -/
def specHasImage (d : Deal) : Bool := d.image != PLACEHOLDER_IMG

/-- The claimed composite order on an adjacent pair: relevance descending,
ties broken by image presence (present before absent), then by price
descending.  Relevance and price are the defaulted dict reads (the deals
carry no such keys). -/
def specRankedPair (a b : Deal) : Bool :=
  decide (relevanceRead b < relevanceRead a) ||
    (decide (relevanceRead a = relevanceRead b) &&
      ((specHasImage a && !specHasImage b) ||
        (specHasImage a == specHasImage b && decide (priceRead b ≤ priceRead a))))

def specRankedOk : List Deal → Bool
  | [] => true
  | [_] => true
  | a :: b :: rest => specRankedPair a b && specRankedOk (b :: rest)

/-- Modelled from the spec: the fixed English stop-word set of §4.3 (the
repository contains no scorer and no stop-word list; a typical small set is
used, irrelevant to the concrete inputs the theorems evaluate). -/
def STOPWORDS : List Str :=
  ["the".data, "a".data, "an".data, "and".data, "or".data, "of".data, "for".data,
   "to".data, "in".data, "on".data, "at".data, "with".data, "is".data]

def splitWsGo : Str → Str → List Str
  | tok, [] => if tok.isEmpty then [] else [tok.reverse]
  | tok, c :: cs =>
    if c.isWhitespace then
      if tok.isEmpty then splitWsGo [] cs else tok.reverse :: splitWsGo [] cs
    else splitWsGo (c :: tok) cs

/-- Python `s.split()`: split on whitespace runs, discarding empties. -/
def splitWs (s : Str) : List Str := splitWsGo [] s

/-- Modelled from the spec: lower-case, tokenize on whitespace, drop
stop-words (§4.3). -/
def tokenize (s : Str) : List Str :=
  (splitWs (lowerStr s)).filter (fun t => !STOPWORDS.contains t)

/-- Fuelled longest-common-subsequence length (fuel `a.length + b.length`
always suffices). -/
def lcsAux : Nat → Str → Str → Nat
  | 0, _, _ => 0
  | _ + 1, [], _ => 0
  | _ + 1, _, [] => 0
  | fuel + 1, a :: as, b :: bs =>
    if a == b then 1 + lcsAux fuel as bs
    else max (lcsAux fuel (a :: as) bs) (lcsAux fuel as (b :: bs))

def lcsLen (a b : Str) : Nat := lcsAux (a.length + b.length) a b

/-- Modelled from the spec: the "longest-common-subsequence-style ratio" of
§4.3, `2*LCS/(len₁+len₂)` on the lowercased whole strings. -/
def seqRatio (a b : Str) : ℚ :=
  if a.length + b.length = 0 then 1 else (2 * lcsLen a b : ℚ) / ((a.length + b.length : Nat) : ℚ)

/-- Index of the first occurrence of `needle` in `hay`. -/
def findSubIdx (needle : Str) : Str → Option Nat
  | [] => if startsWithL needle [] then some 0 else none
  | c :: cs =>
    if startsWithL needle (c :: cs) then some 0
    else (findSubIdx needle cs).map (· + 1)

def startsWithToks : List Str → List Str → Bool
  | [], _ => true
  | _ :: _, [] => false
  | p :: ps, x :: xs => p == x && startsWithToks ps xs

/-- Does `pat` occur as a contiguous block of `l`? -/
def hasContig (pat : List Str) : List Str → Bool
  | [] => startsWithToks pat []
  | x :: xs => startsWithToks pat (x :: xs) || hasContig pat xs

def pairDistSum : List Nat → Nat
  | [] => 0
  | o :: rest => (rest.map (fun x => max x o - min x o)).sum + pairDistSum rest

/-- Modelled from the spec: the proximity bonus of §4.3
(`1/(1 + average pairwise character-offset distance)` over the keyword
tokens found in the title, `0` when fewer than two are found).  "Found" is
read as substring occurrence, the reading giving the larger score. -/
def specProximity (kwToks : List Str) (titleLower : Str) : ℚ :=
  let offs := kwToks.filterMap (fun t => findSubIdx t titleLower)
  if offs.length < 2 then 0
  else 1 / (1 + (pairDistSum offs : ℚ) / ((offs.length * (offs.length - 1) / 2 : Nat) : ℚ))

/-- Modelled from the spec: the §4.3 weighted base score (weights 0.4 / 0.2 /
0.2 / 0.2).  The repository contains no such computation. -/
def specBaseScore (keyword title : Str) : ℚ :=
  let kt := tokenize keyword
  let tt := tokenize title
  let exact : ℚ :=
    if kt.length = 0 then 0
    else ((kt.filter (fun t => tt.contains t)).length : ℚ) / (kt.length : ℚ)
  let seq := seqRatio (lowerStr keyword) (lowerStr title)
  let ord : ℚ := if !kt.isEmpty && hasContig kt tt then 1 else 0
  (2 / 5) * exact + (1 / 5) * seq + (1 / 5) * ord + (1 / 5) * specProximity kt (lowerStr title)

instance : DecidableEq (Except Unit Str) := fun a b =>
  match a, b with
  | Except.ok x, Except.ok y =>
    if h : x = y then Decidable.isTrue (by rw [h]) else Decidable.isFalse (by simp [h])
  | Except.error x, Except.error y => Decidable.isTrue (by cases x; cases y; rfl)
  | Except.ok _, Except.error _ => Decidable.isFalse (by simp)
  | Except.error _, Except.ok _ => Decidable.isFalse (by simp)

/-! ## Shared concrete objects for witnesses and counterexamples -/

/-- An environment where every network interaction fails (pages unreachable,
no Rainforest key). -/
def envNull : Env :=
  { resolve := fun u => u, page := fun _ => none, amazonImg := fun _ => none,
    rainforest := none }

/-! ## Claim C1 -/

/-- Claim C1, counterexample: with `max_results = 0` (and any keyword, here
an empty feed), the pipeline still returns the fallback search deal, so the
deals list has length 1 > `max_results`, violating the claimed upper bound
`len(deals) ≤ maxResults`. -/
theorem c1_counterexample :
    (getAmazonAffiliateLinks envNull [] "k".data "t".data 0).deals.length = 1 ∧
    ¬ (getAmazonAffiliateLinks envNull [] "k".data "t".data 0).deals.length ≤ 0 := by
  decide

/-- Claim C1 (amended: for every `maxResults ≥ 1`): the pipeline always
returns a dictionary whose deals list is non-empty and has length at most
`maxResults`; the no-results condition is not an error but produces the
fallback deal.  (`get_amazon_affiliate_links` is modelled as a total
function: every network failure is absorbed, so it never raises.) -/
theorem c1_amended_bounds (env : Env) (feed : List Entry) (kw tag : Str) (m : Nat)
    (hm : 1 ≤ m) :
    1 ≤ (getAmazonAffiliateLinks env feed kw tag m).deals.length ∧
    (getAmazonAffiliateLinks env feed kw tag m).deals.length ≤ m := by
  unfold getAmazonAffiliateLinks
  by_cases h : ((matchingEntries feed kw m).filterMap (processDeal env tag)).isEmpty
  · simp only [h, if_true]
    cases env.rainforest <;> simpa using hm
  · simp only [h, if_false]
    constructor
    · have hne : (matchingEntries feed kw m).filterMap (processDeal env tag) ≠ [] := by
        simpa [List.isEmpty_iff] using h
      exact List.length_pos.mpr hne
    · calc ((matchingEntries feed kw m).filterMap (processDeal env tag)).length
          ≤ (matchingEntries feed kw m).length := List.length_filterMap_le _ _
        _ ≤ m := by simp [matchingEntries, List.length_take]

/-- Claim C1, witness: the amended bounds at a concrete instance. -/
theorem c1_witness :
    1 ≤ (getAmazonAffiliateLinks envNull [] "k".data "t".data 3).deals.length ∧
    (getAmazonAffiliateLinks envNull [] "k".data "t".data 3).deals.length ≤ 3 :=
  c1_amended_bounds envNull [] "k".data "t".data 3 (by decide)

/-! ## Claim C7 -/

/-- Claim C7 (confirmed): with an unchanged upstream feed (a fixed `pipeline`
function), (a) a miss runs the pipeline and writes through, and a second call
for the same keyword within the TTL window returns the identical result from
the cache without invoking the pipeline; (b) an expired entry is evicted and
the pipeline re-run; (c) a miss runs the pipeline and writes the result
through. -/
theorem c7_cache_behaviour (pipe : Str → QueryResult) (cache : CacheMap) (q : Str)
    (t1 t2 : Nat) :
    (pyStrip q ≠ [] → cache (pyStrip q) = none → t2 - t1 < CACHE_TIMEOUT →
      apiSearch pipe cache t1 q =
        some (pipe (pyStrip q), true, setCachedSearch cache t1 (pyStrip q) (pipe (pyStrip q))) ∧
      apiSearch pipe (setCachedSearch cache t1 (pyStrip q) (pipe (pyStrip q))) t2 q =
        some (pipe (pyStrip q), false,
          setCachedSearch cache t1 (pyStrip q) (pipe (pyStrip q)))) ∧
    (∀ t0 r0, pyStrip q ≠ [] → cache (pyStrip q) = some (t0, r0) →
      CACHE_TIMEOUT ≤ t2 - t0 →
      apiSearch pipe cache t2 q =
        some (pipe (pyStrip q), true,
          setCachedSearch (fun k => if k = pyStrip q then none else cache k) t2 (pyStrip q)
            (pipe (pyStrip q)))) ∧
    (pyStrip q ≠ [] → cache (pyStrip q) = none →
      apiSearch pipe cache t1 q =
        some (pipe (pyStrip q), true, setCachedSearch cache t1 (pyStrip q) (pipe (pyStrip q)))) := by
  refine ⟨?_, ?_, ?_⟩
  · intro hk hc ht
    have hke : (pyStrip q).isEmpty = false := by
      simpa [List.isEmpty_iff] using hk
    constructor
    · simp [apiSearch, hke, getCachedSearch, hc]
    · simp only [apiSearch, hke, Bool.false_eq_true, if_false]
      have hhit : (setCachedSearch cache t1 (pyStrip q) (pipe (pyStrip q))) (pyStrip q) =
          some (t1, pipe (pyStrip q)) := by simp [setCachedSearch]
      simp [getCachedSearch, hhit, ht]
  · intro t0 r0 hk hc ht
    have hke : (pyStrip q).isEmpty = false := by
      simpa [List.isEmpty_iff] using hk
    have hnf : ¬ (t2 - t0 < CACHE_TIMEOUT) := by omega
    simp [apiSearch, hke, getCachedSearch, hc, hnf]
  · intro hk hc
    have hke : (pyStrip q).isEmpty = false := by
      simpa [List.isEmpty_iff] using hk
    simp [apiSearch, hke, getCachedSearch, hc]

/-- Claim C7, witness: the cache behaviour at a concrete instance. -/
theorem c7_witness :
    apiSearch (fun _ => ⟨[]⟩) (fun _ => none) 0 "k".data =
      some (⟨[]⟩, true, setCachedSearch (fun _ => none) 0 "k".data ⟨[]⟩) ∧
    apiSearch (fun _ => ⟨[]⟩) (setCachedSearch (fun _ => none) 0 "k".data ⟨[]⟩) 10 "k".data =
      some (⟨[]⟩, false, setCachedSearch (fun _ => none) 0 "k".data ⟨[]⟩) :=
  (c7_cache_behaviour (fun _ => ⟨[]⟩) (fun _ => none) "k".data 0 10).1 (by decide) rfl
    (by decide)

/-! ## Claim C3 -/

/-- A fetched page with no Amazon-domain link anywhere: one plain external
anchor, no selector match, no image. -/
def pageNoAmazonLink : PageData := ⟨none, none, [some "https://example.com/z".data]⟩

def entryLeak : Entry := ⟨"Example deal".data, "https://slickdeals.net/f/1".data⟩

def envLeak : Env :=
  { resolve := fun u => u, page := fun _ => some pageNoAmazonLink,
    amazonImg := fun _ => none, rainforest := none }

/-- Claim C3, counterexample: an entry whose source page contains no
Amazon-domain link anywhere (its only element's href fails every
amazon/amzn/skimresources test and no selector matches) is NOT rejected:
the fallback loop leaks the last scanned href, normalisation fails, and the
`except ValueError` branch emits a search-link Deal. -/
theorem c3_counterexample :
    (pageNoAmazonLink.selHref = none ∧
      pageNoAmazonLink.elems.all (fun v => !hrefCond v) = true) ∧
    processDeal envLeak "t".data entryLeak =
      some ⟨"Example deal".data, "https://www.amazon.com/s?k=Example+deal&tag=t".data,
        PLACEHOLDER_IMG, none, none⟩ := by
  decide

/-- Claim C3 (amended): an entry is rejected (contributes no Deal) exactly
when link discovery produces no truthy href: the selector loop found nothing
truthy AND the element scan ends falsy (no element matched the amazon
pattern and the last element carries no href value).  A page with no
Amazon link but a truthy href on its last element instead yields a
search-link Deal (see the counterexample). -/
theorem c3_amended_rejection (env : Env) (tag : Str) (entry : Entry) (pg : PageData)
    (hp : env.page entry.link = some pg)
    (hsel : isTruthy pg.selHref = false)
    (hfb : isTruthy (fallbackScan pg.elems) = false) :
    processDeal env tag entry = none := by
  have hph : pageHref pg = fallbackScan pg.elems := by simp [pageHref, hsel]
  cases hfs : fallbackScan pg.elems with
  | none => simp [processDeal, hp, hph, hfs]
  | some s =>
    rw [hfs] at hfb
    have hse : s.isEmpty = true := by simpa [isTruthy] using hfb
    simp [processDeal, hp, hph, hfs, hse]

def pageEmpty : PageData := ⟨none, none, []⟩

def envPageEmpty : Env :=
  { resolve := fun u => u, page := fun _ => some pageEmpty,
    amazonImg := fun _ => none, rainforest := none }

/-- Claim C3, witness: a page with no elements at all is rejected. -/
theorem c3_witness : processDeal envPageEmpty "t".data entryLeak = none :=
  c3_amended_rejection envPageEmpty "t".data entryLeak pageEmpty rfl (by decide) (by decide)

/-! ## Claim C4 -/

def hrefSkim : Str := "https://go.skimresources.com/?id=1&url=https%3A%2F%2Fexample.com%2Fp".data

def pageSkim : PageData := ⟨none, some hrefSkim, []⟩

def entrySkim : Entry := ⟨"Skim deal".data, "https://slickdeals.net/f/2".data⟩

def envSkim : Env :=
  { resolve := fun u => u, page := fun _ => some pageSkim,
    amazonImg := fun _ => none, rainforest := none }

/-- Claim C4, counterexample: a candidate link whose normalisation fails with
`NotTargetDomain` (the skimresources wrapper unwraps to `example.com`) does
NOT lead to rejection: `_process_deal` catches the `ValueError` and emits a
Deal carrying a constructed search link, contradicting "it emits no Deal for
that entry". -/
theorem c4_counterexample :
    normalizeAmazonLink (fun u => u) hrefSkim "t".data = Except.error () ∧
    processDeal envSkim "t".data entrySkim =
      some ⟨"Skim deal".data, "https://www.amazon.com/s?k=Skim+deal&tag=t".data,
        PLACEHOLDER_IMG, none, none⟩ := by
  decide

/-- Claim C4 (amended): when the discovered link's normalisation fails
because the resolved host is not on the target domain, the enricher does not
propagate the error, but neither does it reject the entry: it emits a Deal
whose link is the constructed Amazon search link for the entry title, with
the page image or the placeholder. -/
theorem c4_amended_search_fallback (env : Env) (tag : Str) (entry : Entry) (pg : PageData)
    (h : Str) (hp : env.page entry.link = some pg) (hh : pageHref pg = some h)
    (hne : h ≠ []) (herr : normalizeAmazonLink env.resolve h tag = Except.error ()) :
    processDeal env tag entry =
      some { title := entry.title, amazon_link := buildAmazonSearchLink entry.title tag,
             image := orPlaceholder (if isTruthy pg.img then pg.img else none) } := by
  have hse : h.isEmpty = false := by simpa [List.isEmpty_iff] using hne
  simp [processDeal, hp, hh, hse, herr]

/-- Claim C4, witness: the amended behaviour at the concrete skimresources
input. -/
theorem c4_witness :
    processDeal envSkim "t".data entrySkim =
      some { title := entrySkim.title,
             amazon_link := buildAmazonSearchLink entrySkim.title "t".data,
             image := orPlaceholder (if isTruthy pageSkim.img then pageSkim.img else none) } :=
  c4_amended_search_fallback envSkim "t".data entrySkim pageSkim hrefSkim rfl (by decide)
    (by decide) (by decide)

/-! ## Deal provenance lemmas (shared) -/

/-- Every deal emitted by `_process_deal` carries no `relevance_score` and no
`price` key. -/
theorem processDeal_fields (env : Env) (tag : Str) (e : Entry) (d : Deal)
    (h : processDeal env tag e = some d) :
    d.relevance_score = none ∧ d.price = none := by
  rcases henv : env.page e.link with _ | pg
  · simp [processDeal, henv] at h
  · rcases hh : pageHref pg with _ | s
    · simp [processDeal, henv, hh] at h
    · by_cases hse : s.isEmpty = true
      · simp [processDeal, henv, hh, hse] at h
      · have hse2 : s.isEmpty = false := by simpa using hse
        rcases hn : normalizeAmazonLink env.resolve s tag with u | clean <;>
          (simp only [processDeal, henv, hh, hse2, Bool.false_eq_true, if_false, hn,
            Option.some.injEq] at h
           rw [← h]
           exact ⟨rfl, rfl⟩)

/-- Every deal in a pipeline result comes from a processed matching entry, or
is the Rainforest fallback, or is the search fallback. -/
theorem deal_origin (env : Env) (feed : List Entry) (kw tag : Str) (m : Nat) (d : Deal)
    (hd : d ∈ (getAmazonAffiliateLinks env feed kw tag m).deals) :
    (∃ e, e ∈ matchingEntries feed kw m ∧ processDeal env tag e = some d) ∨
    (∃ r, env.rainforest = some r ∧ d = rainforestDeal tag r) ∨
    d = searchFallbackDeal kw tag := by
  unfold getAmazonAffiliateLinks at hd
  by_cases h : ((matchingEntries feed kw m).filterMap (processDeal env tag)).isEmpty
  · rw [if_pos h] at hd
    rcases hr : env.rainforest with _ | r <;> rw [hr] at hd <;> simp at hd
    · right; right; exact hd
    · right; left; exact ⟨r, rfl, hd⟩
  · rw [if_neg h] at hd
    simp only [List.mem_filterMap] at hd
    rcases hd with ⟨e, he, hpe⟩
    exact Or.inl ⟨e, he, hpe⟩

/-! ## Claim C5 -/

def entryD1 : Entry := ⟨"deal one".data, "https://slickdeals.net/f/3".data⟩

def entryD2 : Entry := ⟨"deal two".data, "https://slickdeals.net/f/4".data⟩

def envRank : Env :=
  { resolve := fun u => u,
    page := fun l =>
      if l = entryD1.link then some ⟨none, some "https://www.amazon.com/offer".data, []⟩
      else if l = entryD2.link then
        some ⟨some "https://cdn.example/p.jpg".data, some "https://www.amazon.com/thing".data, []⟩
      else none,
    amazonImg := fun _ => none, rainforest := none }

/-- Claim C5, counterexample: a returned deals list that violates the claimed
composite order -- all (defaulted) relevance reads are equal, yet a
placeholder-image deal precedes a real-image deal, breaking the
image-presence tie-break.  The pipeline applies no ranking at all. -/
theorem c5_counterexample :
    (getAmazonAffiliateLinks envRank [entryD1, entryD2] "deal".data "t".data 5).deals =
      [⟨"deal one".data, "https://www.amazon.com/offer?tag=t".data, PLACEHOLDER_IMG,
        none, none⟩,
       ⟨"deal two".data, "https://www.amazon.com/thing?tag=t".data,
        "https://cdn.example/p.jpg".data, none, none⟩] ∧
    specRankedOk (getAmazonAffiliateLinks envRank [entryD1, entryD2] "deal".data "t".data 5).deals
      = false := by
  decide

/-- The Python sort of `update_top_deals_cache` is order-preserving whenever
all keys coincide (all deals read relevance 0). -/
theorem pySortDescBy_const (key : Deal → ℚ) (l : List Deal) (h : ∀ d ∈ l, key d = 0) :
    pySortDescBy key l = l := by
  induction l with
  | nil => rfl
  | cons x xs ih =>
    have hx : key x = 0 := h x (by simp)
    have ih' : pySortDescBy key xs = xs := ih (fun d hd => h d (by simp [hd]))
    cases xs with
    | nil => simp [pySortDescBy, insertDescBy]
    | cons y ys =>
      have hy : key y = 0 := h y (by simp)
      rw [show pySortDescBy key (x :: y :: ys) = insertDescBy key x (pySortDescBy key (y :: ys))
        from rfl, ih', show insertDescBy key x (y :: ys) =
          if key x < key y then y :: insertDescBy key x ys else x :: y :: ys from rfl,
        if_neg (by rw [hx, hy]; exact lt_irrefl 0)]

/-- Claim C5 (amended): the pipeline performs no ranking.  Every returned
Deal carries neither a relevance score nor a price, so the only sort in the
repository (`update_top_deals_cache`, keyed on the defaulted
`relevance_score` read) leaves every returned deals list unchanged; the
claimed image/price tie-breaks are not applied (see the counterexample). -/
theorem c5_amended_no_ranking (env : Env) (feed : List Entry) (kw tag : Str) (m : Nat) :
    (∀ d ∈ (getAmazonAffiliateLinks env feed kw tag m).deals,
      d.relevance_score = none ∧ d.price = none) ∧
    pySortDescBy relevanceRead (getAmazonAffiliateLinks env feed kw tag m).deals =
      (getAmazonAffiliateLinks env feed kw tag m).deals := by
  have hfields : ∀ d ∈ (getAmazonAffiliateLinks env feed kw tag m).deals,
      d.relevance_score = none ∧ d.price = none := by
    intro d hd
    rcases deal_origin env feed kw tag m d hd with ⟨e, _, hpe⟩ | ⟨r, _, hdr⟩ | hdr
    · exact processDeal_fields env tag e d hpe
    · rw [hdr]; exact ⟨rfl, rfl⟩
    · rw [hdr]; exact ⟨rfl, rfl⟩
  refine ⟨hfields, pySortDescBy_const _ _ ?_⟩
  intro d hd
  have := (hfields d hd).1
  simp [relevanceRead, this]

/-- Claim C5, witness: the amended no-ranking statement evaluated at the
concrete two-deal run. -/
theorem c5_witness :
    pySortDescBy relevanceRead
        (getAmazonAffiliateLinks envRank [entryD1, entryD2] "deal".data "t".data 5).deals =
      (getAmazonAffiliateLinks envRank [entryD1, entryD2] "deal".data "t".data 5).deals :=
  (c5_amended_no_ranking envRank [entryD1, entryD2] "deal".data "t".data 5).2

/-! ## Claim C6 -/

def entryLow : Entry := ⟨"qx yqqqqqq".data, "https://slickdeals.net/f/5".data⟩

def envLow : Env :=
  { resolve := fun u => u,
    page := fun _ =>
      some ⟨some "https://cdn.example/i.jpg".data, some "https://www.amazon.com/low".data, []⟩,
    amazonImg := fun _ => none, rainforest := none }

/-- Claim C6, counterexample (spec-modelled scorer): the entry titled
`qx yqqqqqq` matches keyword `x y` as a substring, so the code enriches it
(here all the way to a returned Deal -- a network call was made for it),
although its §4.3 weighted base score is 31/195 < 0.2.  No score threshold
exists in the code. -/
theorem c6_counterexample :
    entryLow ∈ matchingEntries [entryLow] "x y".data 5 ∧
    (getAmazonAffiliateLinks envLow [entryLow] "x y".data "t".data 5).deals =
      [⟨"qx yqqqqqq".data, "https://www.amazon.com/low?tag=t".data,
        "https://cdn.example/i.jpg".data, none, none⟩] ∧
    specBaseScore "x y".data "qx yqqqqqq".data < 1 / 5 := by
  refine ⟨by decide, by decide, ?_⟩
  have e1 : tokenize "x y".data = ["x".data, "y".data] := by decide
  have e2 : tokenize "qx yqqqqqq".data = ["qx".data, "yqqqqqq".data] := by decide
  have e3 : lowerStr "x y".data = "x y".data := by decide
  have e4 : lowerStr "qx yqqqqqq".data = "qx yqqqqqq".data := by decide
  have e5 : lcsLen "x y".data "qx yqqqqqq".data = 3 := by decide
  have e6 : (["x".data, "y".data].filter
      (fun t => (["qx".data, "yqqqqqq".data] : List Str).contains t)).length = 0 := by decide
  have e7 : hasContig ["x".data, "y".data] ["qx".data, "yqqqqqq".data] = false := by decide
  have e8 : (["x".data, "y".data] : List Str).filterMap
      (fun t => findSubIdx t "qx yqqqqqq".data) = [1, 3] := by decide
  simp only [specBaseScore, e1, e2, e3, e4, specProximity, e8, seqRatio, e5, e6, e7]
  norm_num [pairDistSum]

/-- Claim C6 (amended): the only pre-enrichment gate is case-insensitive
substring containment of the keyword in the entry title (truncated to the
first `max_results` matches); no weighted relevance score is computed or
thresholded.  Every non-fallback deal in a result originates from an entry
whose lowercased title contains the lowercased keyword. -/
theorem c6_amended_substring_gate (env : Env) (feed : List Entry) (kw tag : Str) (m : Nat)
    (d : Deal) (hd : d ∈ (getAmazonAffiliateLinks env feed kw tag m).deals) :
    (∃ e, e ∈ feed ∧ containsSub (lowerStr kw) (lowerStr e.title) = true ∧
      processDeal env tag e = some d) ∨
    (∃ r, env.rainforest = some r ∧ d = rainforestDeal tag r) ∨
    d = searchFallbackDeal kw tag := by
  rcases deal_origin env feed kw tag m d hd with ⟨e, he, hpe⟩ | h | h
  · left
    have h1 : e ∈ feed.filter (fun e => containsSub (lowerStr kw) (lowerStr e.title)) :=
      List.mem_of_mem_take he
    have h2 := List.mem_filter.mp h1
    exact ⟨e, h2.1, h2.2, hpe⟩
  · right; left; exact h
  · right; right; exact h

/-- Claim C6, witness: the amended origin property at the concrete low-score
run. -/
theorem c6_witness :
    (∃ e, e ∈ [entryLow] ∧
      containsSub (lowerStr "x y".data) (lowerStr e.title) = true ∧
      processDeal envLow "t".data e =
        some ⟨"qx yqqqqqq".data, "https://www.amazon.com/low?tag=t".data,
          "https://cdn.example/i.jpg".data, none, none⟩) ∨
    (∃ r, envLow.rainforest = some r ∧
      (⟨"qx yqqqqqq".data, "https://www.amazon.com/low?tag=t".data,
        "https://cdn.example/i.jpg".data, none, none⟩ : Deal) = rainforestDeal "t".data r) ∨
    (⟨"qx yqqqqqq".data, "https://www.amazon.com/low?tag=t".data,
      "https://cdn.example/i.jpg".data, none, none⟩ : Deal) =
      searchFallbackDeal "x y".data "t".data :=
  c6_amended_substring_gate envLow [entryLow] "x y".data "t".data 5 _ (by decide)

/-! ## Claim C9 -/

def feedRing : List Entry := [⟨"unrelated gadget".data, "https://x".data⟩]

/-- Claim C9 (confirmed): for keyword `ring` with zero matching feed entries
and the Rainforest credential absent (`envNull.rainforest = none` models the
unset `RAINFOREST_KEY`), the pipeline returns exactly one Deal titled
`Amazon search for 'ring'` whose link is the constructed search URL with the
default tag, with placeholder image; its relevance and price read as 0 (the
dict carries no such keys, and consumers read them with default 0). -/
theorem c9_ring_fallback :
    getAmazonAffiliateLinks envNull feedRing "ring".data DEFAULT_TAG 5 =
      ⟨[⟨"Amazon search for ".data ++ apos :: ("ring".data ++ [apos]),
        "https://www.amazon.com/s?k=ring&tag=2025050f-20".data, PLACEHOLDER_IMG,
        none, none⟩]⟩ ∧
    relevanceRead (searchFallbackDeal "ring".data DEFAULT_TAG) = 0 ∧
    priceRead (searchFallbackDeal "ring".data DEFAULT_TAG) = 0 := by
  refine ⟨by decide, rfl, rfl⟩

/-! ## Claim C10 -/

/-- Claim C10 (confirmed): the only entry-selection test before enrichment is
substring containment of the lowercased keyword in the lowercased title:
(1) an empty keyword selects every entry (the first `max_results` of them);
(2) every selected entry is a feed entry whose title contains the keyword;
(3) at most `max_results` entries are selected;
(4) non-matching entries contribute nothing: deleting them from the feed
does not change the pipeline result. -/
theorem c10_selection (env : Env) (feed : List Entry) (kw tag : Str) (m : Nat) :
    matchingEntries feed [] m = feed.take m ∧
    (∀ e ∈ matchingEntries feed kw m,
      e ∈ feed ∧ containsSub (lowerStr kw) (lowerStr e.title) = true) ∧
    (matchingEntries feed kw m).length ≤ m ∧
    getAmazonAffiliateLinks env
        (feed.filter (fun e => containsSub (lowerStr kw) (lowerStr e.title))) kw tag m =
      getAmazonAffiliateLinks env feed kw tag m := by
  refine ⟨?_, ?_, ?_, ?_⟩
  · have hall : ∀ e : Entry, containsSub (lowerStr []) (lowerStr e.title) = true := by
      intro e
      cases h : lowerStr e.title with
      | nil => simp [lowerStr, containsSub, startsWithL]
      | cons c cs => simp [lowerStr, containsSub, startsWithL]
    unfold matchingEntries
    rw [List.filter_eq_self.mpr (fun a _ => hall a)]
  · intro e he
    have h1 : e ∈ feed.filter (fun e => containsSub (lowerStr kw) (lowerStr e.title)) :=
      List.mem_of_mem_take he
    have h2 := List.mem_filter.mp h1
    exact ⟨h2.1, h2.2⟩
  · simp [matchingEntries, List.length_take]
  · unfold getAmazonAffiliateLinks matchingEntries
    rw [List.filter_filter]
    simp

/-- Claim C10, witness: the selection properties at a concrete feed. -/
theorem c10_witness :
    entryLow ∈ [entryLow, ⟨"zzz".data, "https://y".data⟩] ∧
    containsSub (lowerStr "qx".data) (lowerStr entryLow.title) = true :=
  (c10_selection envNull [entryLow, ⟨"zzz".data, "https://y".data⟩] "qx".data "t".data 5).2.1
    entryLow (by decide)

/-! ## Character-level lemmas -/

theorem charToNatOfNat (n : Nat) (h : n < 55296) : (Char.ofNat n).toNat = n := by
  have hv : Nat.isValidChar n := Or.inl h
  simp only [Char.ofNat, hv, dite_true, Char.toNat, Char.ofNatAux]
  rfl

theorem charEqIff (a b : Char) : a = b ↔ a.toNat = b.toNat := by
  constructor
  · intro h; rw [h]
  · intro h
    have h2 := Char.ofNat_toNat a
    rw [h, Char.ofNat_toNat] at h2
    exact h2.symm

theorem isUpperIff (c : Char) : c.isUpper = true ↔ 65 ≤ c.toNat ∧ c.toNat ≤ 90 := by
  simp only [Char.isUpper, Bool.and_eq_true, decide_eq_true_eq, ge_iff_le]
  exact Iff.rfl

theorem isLowerIff (c : Char) : c.isLower = true ↔ 97 ≤ c.toNat ∧ c.toNat ≤ 122 := by
  simp only [Char.isLower, Bool.and_eq_true, decide_eq_true_eq, ge_iff_le]
  exact Iff.rfl

theorem isDigitIff (c : Char) : c.isDigit = true ↔ 48 ≤ c.toNat ∧ c.toNat ≤ 57 := by
  simp only [Char.isDigit, Bool.and_eq_true, decide_eq_true_eq, ge_iff_le]
  exact Iff.rfl

theorem isAlphaIff (c : Char) :
    c.isAlpha = true ↔ (65 ≤ c.toNat ∧ c.toNat ≤ 90) ∨ (97 ≤ c.toNat ∧ c.toNat ≤ 122) := by
  simp only [Char.isAlpha, Bool.or_eq_true, isUpperIff, isLowerIff]

theorem toLowerSplitIf (c : Char) :
    Char.toLower c = if 65 ≤ c.toNat ∧ c.toNat ≤ 90 then Char.ofNat (c.toNat + 32) else c := rfl

theorem toLowerToNat (c : Char) :
    (Char.toLower c).toNat = if 65 ≤ c.toNat ∧ c.toNat ≤ 90 then c.toNat + 32 else c.toNat := by
  rw [toLowerSplitIf]
  by_cases h : 65 ≤ c.toNat ∧ c.toNat ≤ 90
  · rw [if_pos h, if_pos h, charToNatOfNat _ (by omega)]
  · rw [if_neg h, if_neg h]

theorem toLowerIdem (c : Char) : Char.toLower (Char.toLower c) = Char.toLower c := by
  rw [charEqIff, toLowerToNat, toLowerToNat]
  by_cases h : 65 ≤ c.toNat ∧ c.toNat ≤ 90
  · simp [h]
    omega
  · simp [h]

theorem isAlphaToLower (c : Char) (h : c.isAlpha = true) : (Char.toLower c).isAlpha = true := by
  rw [isAlphaIff] at h ⊢
  rw [toLowerToNat]
  rcases h with h | h
  · rw [if_pos h]; omega
  · rw [if_neg (by omega)]; omega

theorem isSchemeCharToLower (c : Char) (h : isSchemeChar c = true) :
    isSchemeChar (Char.toLower c) = true := by
  unfold isSchemeChar at h ⊢
  simp only [Bool.or_eq_true, beq_iff_eq] at h ⊢
  rcases h with (((h | h) | h) | h) | h
  · exact Or.inl (Or.inl (Or.inl (Or.inl (isAlphaToLower c h))))
  · have hd : ¬ (65 ≤ c.toNat ∧ c.toNat ≤ 90) := by rw [isDigitIff] at h; omega
    refine Or.inl (Or.inl (Or.inl (Or.inr ?_)))
    rw [isDigitIff] at h ⊢
    rw [toLowerToNat, if_neg hd]
    exact h
  · have hd : ¬ (65 ≤ c.toNat ∧ c.toNat ≤ 90) := by subst h; decide
    refine Or.inl (Or.inl (Or.inr ?_))
    rw [toLowerSplitIf, if_neg hd]
    exact h
  · have hd : ¬ (65 ≤ c.toNat ∧ c.toNat ≤ 90) := by subst h; decide
    refine Or.inl (Or.inr ?_)
    rw [toLowerSplitIf, if_neg hd]
    exact h
  · have hd : ¬ (65 ≤ c.toNat ∧ c.toNat ≤ 90) := by subst h; decide
    refine Or.inr ?_
    rw [toLowerSplitIf, if_neg hd]
    exact h

theorem lowerStrIdem (s : Str) : lowerStr (lowerStr s) = lowerStr s := by
  unfold lowerStr
  rw [List.map_map]
  exact List.map_congr_left (fun c _ => toLowerIdem c)

theorem isSchemeCharNeColon (c : Char) (h : isSchemeChar c = true) : c ≠ ':' := by
  intro hc
  rw [hc] at h
  simp [isSchemeChar, Char.isAlpha, Char.isUpper, Char.isLower, Char.isDigit] at h

/-! ## String-surgery lemmas -/

theorem startsWithLIff (p s : Str) : startsWithL p s = true ↔ ∃ t, s = p ++ t := by
  induction p generalizing s with
  | nil => simp [startsWithL]
  | cons c cs ih =>
    cases s with
    | nil => simp [startsWithL]
    | cons x xs =>
      simp only [startsWithL, Bool.and_eq_true, beq_iff_eq, ih]
      constructor
      · rintro ⟨h1, t, h2⟩
        exact ⟨t, by rw [h1, h2]; rfl⟩
      · rintro ⟨t, h⟩
        simp only [List.cons_append, List.cons.injEq] at h
        exact ⟨h.1.symm, t, h.2⟩

theorem breakOnFirstNone (c : Char) (s : Str) (h : c ∉ s) : breakOnFirst c s = none := by
  induction s with
  | nil => rfl
  | cons x xs ih =>
    have hx : (x == c) = false := by
      simp only [beq_eq_false_iff_ne, ne_eq]
      intro he
      exact h (by rw [he]; exact List.mem_cons_self c xs)
    simp [breakOnFirst, hx, ih (fun hm => h (List.mem_cons_of_mem x hm))]

theorem breakOnFirstAppend (c : Char) (a b : Str) (h : c ∉ a) :
    breakOnFirst c (a ++ c :: b) = some (a, b) := by
  induction a with
  | nil => simp [breakOnFirst]
  | cons x xs ih =>
    have hx : (x == c) = false := by
      simp only [beq_eq_false_iff_ne, ne_eq]
      intro he
      exact h (by rw [he]; exact List.mem_cons_self c xs)
    simp [breakOnFirst, hx, ih (fun hm => h (List.mem_cons_of_mem x hm))]

theorem breakOnFirstEqSome (c : Char) (s a b : Str) (h : breakOnFirst c s = some (a, b)) :
    s = a ++ c :: b ∧ c ∉ a := by
  induction s generalizing a with
  | nil => cases h
  | cons x xs ih =>
    by_cases hx : (x == c) = true
    · rw [beq_iff_eq] at hx
      subst hx
      simp only [breakOnFirst, beq_self_eq_true, if_true, Option.some.injEq,
        Prod.mk.injEq] at h
      obtain ⟨h1, h2⟩ := h
      subst h1
      subst h2
      exact ⟨rfl, List.not_mem_nil _⟩
    · have hx2 : (x == c) = false := by simpa using hx
      cases hb : breakOnFirst c xs with
      | none => simp [breakOnFirst, hx2, hb] at h
      | some p =>
        obtain ⟨p1, p2⟩ := p
        simp only [breakOnFirst, hx2, Bool.false_eq_true, if_false, hb, Option.map_some',
          Option.some.injEq, Prod.mk.injEq] at h
        obtain ⟨h1, h2⟩ := h
        subst h2
        have hp := ih p1 hb
        subst h1
        rw [beq_eq_false_iff_ne, ne_eq] at hx2
        refine ⟨by simp [hp.1], ?_⟩
        intro hm
        rcases List.mem_cons.mp hm with he | hm2
        · exact hx2 he.symm
        · exact hp.2 hm2

theorem breakOnFirstNoneImp (c : Char) (s : Str) (h : breakOnFirst c s = none) : c ∉ s := by
  induction s with
  | nil => exact List.not_mem_nil c
  | cons x xs ih =>
    by_cases hx : (x == c) = true
    · simp [breakOnFirst, hx] at h
    · have hx2 : (x == c) = false := by simpa using hx
      simp only [breakOnFirst, hx2, Bool.false_eq_true, if_false, Option.map_eq_none'] at h
      intro hm
      rcases List.mem_cons.mp hm with he | hm2
      · rw [beq_iff_eq] at hx; exact hx he.symm
      · exact ih h hm2

theorem splitOnCharNotMem (c : Char) (s : Str) (h : c ∉ s) : splitOnChar c s = [s] := by
  induction s with
  | nil => rfl
  | cons x xs ih =>
    have hx : (x == c) = false := by
      simp only [beq_eq_false_iff_ne, ne_eq]
      intro he
      exact h (by rw [he]; exact List.mem_cons_self c xs)
    simp [splitOnChar, ih (fun hm => h (List.mem_cons_of_mem x hm)), hx]

theorem splitOnCharNeNil (c : Char) (s : Str) : splitOnChar c s ≠ [] := by
  cases s with
  | nil => simp [splitOnChar]
  | cons x xs =>
    unfold splitOnChar
    cases splitOnChar c xs with
    | nil => simp
    | cons r rs =>
      by_cases hx : (x == c) = true <;> simp [hx]

theorem splitOnCharAppend (c : Char) (a b : Str) (h : c ∉ a) :
    splitOnChar c (a ++ c :: b) = a :: splitOnChar c b := by
  induction a with
  | nil =>
    cases hsb : splitOnChar c b with
    | nil => exact absurd hsb (splitOnCharNeNil c b)
    | cons r rs => simp [splitOnChar, hsb]
  | cons x xs ih =>
    have hx : (x == c) = false := by
      simp only [beq_eq_false_iff_ne, ne_eq]
      intro he
      exact h (by rw [he]; exact List.mem_cons_self c xs)
    have ih2 := ih (fun hm => h (List.mem_cons_of_mem x hm))
    cases hsb : splitOnChar c b with
    | nil => exact absurd hsb (splitOnCharNeNil c b)
    | cons r rs =>
      rw [hsb] at ih2
      simp [splitOnChar, ih2, hx, hsb]

theorem splitOnCharIntercalate (c : Char) (ps : List Str) (hne : ps ≠ [])
    (h : ∀ p ∈ ps, c ∉ p) : splitOnChar c (intercalateChar c ps) = ps := by
  induction ps with
  | nil => exact absurd rfl hne
  | cons p rest ih =>
    cases rest with
    | nil => exact splitOnCharNotMem c p (h p (by simp))
    | cons q qs =>
      have hstep : intercalateChar c (p :: q :: qs) = p ++ c :: intercalateChar c (q :: qs) :=
        rfl
      rw [hstep, splitOnCharAppend c _ _ (h p (by simp)),
        ih (by simp) (fun r hr => h r (List.mem_cons_of_mem p hr))]

theorem dropTrailingLast (p : Char → Bool) (s : Str) (x : Char) (hl : s.getLast? = some x)
    (hx : p x = false) : dropTrailing p s = s := by
  have h1 : s.reverse.head? = some x := by rw [List.head?_reverse]; exact hl
  unfold dropTrailing
  cases hs : s.reverse with
  | nil => rw [hs] at h1; cases h1
  | cons y ys =>
    rw [hs] at h1
    injection h1 with h2
    subst h2
    rw [List.dropWhile_cons, hx]
    simp only [Bool.false_eq_true, if_false]
    rw [← hs, List.reverse_reverse]

theorem dropTrailingPivot (p : Char → Bool) (a b : Str) (x : Char) (hx : p x = false) :
    dropTrailing p (a ++ x :: b) = a ++ x :: dropTrailing p b := by
  unfold dropTrailing
  rw [List.reverse_append, List.reverse_cons, List.append_assoc, List.dropWhile_append]
  by_cases hb : (List.dropWhile p b.reverse).isEmpty
  · rw [if_pos hb]
    have hbe : List.dropWhile p b.reverse = [] := by simpa [List.isEmpty_iff] using hb
    rw [show ([x] ++ a.reverse : Str) = x :: a.reverse from rfl, List.dropWhile_cons, hx]
    simp only [Bool.false_eq_true, if_false, List.reverse_cons, List.reverse_reverse]
    rw [hbe]
    simp
  · rw [if_neg hb]
    simp [List.reverse_append, List.append_assoc]

/-! ## Percent-encoding lemmas -/

theorem charToNatLt (c : Char) : c.toNat < 1114112 := by
  have h := c.valid
  rcases h with h | h
  · have : c.toNat < 55296 := h
    omega
  · exact h.2

theorem utf8BytesLt (n : Nat) (hn : n < 1114112) : ∀ b ∈ utf8Bytes n, b < 256 := by
  intro b hb
  unfold utf8Bytes at hb
  by_cases h1 : n < 128
  · rw [if_pos h1] at hb
    simp only [List.mem_singleton] at hb
    omega
  · rw [if_neg h1] at hb
    by_cases h2 : n < 2048
    · rw [if_pos h2] at hb
      simp only [List.mem_cons, List.mem_singleton, List.not_mem_nil, or_false] at hb
      rcases hb with rfl | rfl <;> omega
    · rw [if_neg h2] at hb
      by_cases h3 : n < 65536
      · rw [if_pos h3] at hb
        simp only [List.mem_cons, List.mem_singleton, List.not_mem_nil, or_false] at hb
        rcases hb with rfl | rfl | rfl <;> omega
      · rw [if_neg h3] at hb
        simp only [List.mem_cons, List.mem_singleton, List.not_mem_nil, or_false] at hb
        rcases hb with rfl | rfl | rfl | rfl <;> omega

theorem utf8BytesNeNil (n : Nat) : utf8Bytes n ≠ [] := by
  unfold utf8Bytes
  by_cases h1 : n < 128
  · rw [if_pos h1]; simp
  · rw [if_neg h1]
    by_cases h2 : n < 2048
    · rw [if_pos h2]; simp
    · rw [if_neg h2]
      by_cases h3 : n < 65536
      · rw [if_pos h3]; simp
      · rw [if_neg h3]; simp

theorem hexDigitUToNat (n : Nat) (h : n < 16) :
    (hexDigitU n).toNat = if n < 10 then 48 + n else 55 + n := by
  unfold hexDigitU
  by_cases h10 : n < 10
  · rw [if_pos h10, if_pos h10, charToNatOfNat _ (by omega)]
  · rw [if_neg h10, if_neg h10, charToNatOfNat _ (by omega)]

theorem hexDigitUAlnum (n : Nat) (h : n < 16) : (hexDigitU n).isAlphanum = true := by
  unfold Char.isAlphanum
  rw [Bool.or_eq_true, isAlphaIff, isDigitIff, hexDigitUToNat n h]
  by_cases h10 : n < 10
  · rw [if_pos h10]; omega
  · rw [if_neg h10]; omega

theorem hexValHexDigitU (n : Nat) (h : n < 16) : hexVal (hexDigitU n) = some n := by
  interval_cases n <;> decide

theorem quotePlusCharClasses (c : Char) :
    ∀ x ∈ quotePlusChar c,
      x.isAlphanum = true ∨ x = '_' ∨ x = '.' ∨ x = '-' ∨ x = '~' ∨ x = '+' ∨ x = '%' := by
  intro x hx
  unfold quotePlusChar at hx
  by_cases hsafe : isSafeChar c = true
  · rw [if_pos hsafe] at hx
    simp only [List.mem_singleton] at hx
    subst hx
    unfold isSafeChar at hsafe
    simp only [Bool.or_eq_true, beq_iff_eq] at hsafe
    rcases hsafe with (((h | h) | h) | h) | h <;> tauto
  · rw [if_neg hsafe] at hx
    by_cases hsp : (c == ' ') = true
    · rw [if_pos hsp] at hx
      simp only [List.mem_singleton] at hx
      subst hx
      exact Or.inr (Or.inr (Or.inr (Or.inr (Or.inr (Or.inl rfl)))))
    · rw [if_neg hsp] at hx
      simp only [List.mem_flatMap, List.mem_cons, List.mem_singleton, List.not_mem_nil,
        or_false] at hx
      rcases hx with ⟨b, hb, rfl | rfl | rfl⟩
      · exact Or.inr (Or.inr (Or.inr (Or.inr (Or.inr (Or.inr rfl)))))
      · exact Or.inl (hexDigitUAlnum _
          (by have := utf8BytesLt c.toNat (charToNatLt c) b hb; omega))
      · exact Or.inl (hexDigitUAlnum _
          (by have := utf8BytesLt c.toNat (charToNatLt c) b hb; omega))

theorem notMemQuotePlus (c0 : Char) (h1 : c0.isAlphanum = false)
    (h2 : c0 ≠ '_' ∧ c0 ≠ '.' ∧ c0 ≠ '-' ∧ c0 ≠ '~' ∧ c0 ≠ '+' ∧ c0 ≠ '%') (s : Str) :
    c0 ∉ quotePlus s := by
  intro hm
  rcases List.mem_flatMap.mp hm with ⟨c, _, hc⟩
  rcases quotePlusCharClasses c c0 hc with h | h | h | h | h | h | h
  · rw [h1] at h; cases h
  · exact h2.1 h
  · exact h2.2.1 h
  · exact h2.2.2.1 h
  · exact h2.2.2.2.1 h
  · exact h2.2.2.2.2.1 h
  · exact h2.2.2.2.2.2 h

theorem ampNotMemQuotePlus (s : Str) : '&' ∉ quotePlus s :=
  notMemQuotePlus '&' (by decide) (by decide) s

theorem eqNotMemQuotePlus (s : Str) : '=' ∉ quotePlus s :=
  notMemQuotePlus '=' (by decide) (by decide) s

theorem hashNotMemQuotePlus (s : Str) : '#' ∉ quotePlus s :=
  notMemQuotePlus '#' (by decide) (by decide) s

theorem qmarkNotMemQuotePlus (s : Str) : '?' ∉ quotePlus s :=
  notMemQuotePlus '?' (by decide) (by decide) s

theorem quotePlusSafeId (s : Str) (h : ∀ c ∈ s, isSafeChar c = true) : quotePlus s = s := by
  induction s with
  | nil => rfl
  | cons c cs ih =>
    have hc : isSafeChar c = true := h c (by simp)
    show quotePlusChar c ++ quotePlus cs = c :: cs
    rw [ih (fun x hx => h x (List.mem_cons_of_mem c hx))]
    unfold quotePlusChar
    rw [if_pos hc]
    rfl

theorem quotePlusCharNeNil (c : Char) : quotePlusChar c ≠ [] := by
  unfold quotePlusChar
  by_cases hsafe : isSafeChar c = true
  · rw [if_pos hsafe]; simp
  · rw [if_neg hsafe]
    by_cases hsp : (c == ' ') = true
    · rw [if_pos hsp]; simp
    · rw [if_neg hsp]
      cases hb : utf8Bytes c.toNat with
      | nil => exact absurd hb (utf8BytesNeNil c.toNat)
      | cons b bs => simp [hb]

theorem quotePlusEqSafe (k l : Str) (hl : ∀ c ∈ l, isSafeChar c = true)
    (h : quotePlus k = l) : k = l := by
  induction k generalizing l with
  | nil => exact h
  | cons c cs ih =>
    have hsplit : quotePlusChar c ++ quotePlus cs = l := h
    by_cases hsafe : isSafeChar c = true
    · rw [show quotePlusChar c = [c] from by unfold quotePlusChar; rw [if_pos hsafe]] at hsplit
      cases l with
      | nil => cases hsplit
      | cons y ys =>
        simp only [List.cons_append, List.cons.injEq] at hsplit
        rw [hsplit.1, ih ys (fun x hx => hl x (List.mem_cons_of_mem y hx)) hsplit.2]
    · exfalso
      by_cases hsp : (c == ' ') = true
      · rw [show quotePlusChar c = ['+'] from by
          unfold quotePlusChar; rw [if_neg hsafe, if_pos hsp]] at hsplit
        have : '+' ∈ l := by rw [← hsplit]; simp
        have := hl '+' this
        simp [isSafeChar, Char.isAlphanum, Char.isAlpha, Char.isUpper, Char.isLower,
          Char.isDigit] at this
      · have hqc : ∃ r, quotePlusChar c = '%' :: r := by
          unfold quotePlusChar
          rw [if_neg hsafe, if_neg hsp]
          cases hb : utf8Bytes c.toNat with
          | nil => exact absurd hb (utf8BytesNeNil c.toNat)
          | cons b bs =>
            exact ⟨hexDigitU (b / 16) :: hexDigitU (b % 16) ::
              (bs.flatMap fun b2 => ['%', hexDigitU (b2 / 16), hexDigitU (b2 % 16)]), by simp⟩
        rcases hqc with ⟨r, hr⟩
        rw [hr] at hsplit
        have : '%' ∈ l := by rw [← hsplit]; simp
        have := hl '%' this
        simp [isSafeChar, Char.isAlphanum, Char.isAlpha, Char.isUpper, Char.isLower,
          Char.isDigit] at this

/-! ## urlencode piece lemmas -/

/-- The individual `k=v` fields produced by `urlencodeM`. -/
def encPieces (d : QDict) : List Str :=
  d.flatMap (fun kv => kv.2.map (fun v => quotePlus kv.1 ++ '=' :: quotePlus v))

theorem urlencodeEqPieces (d : QDict) : urlencodeM d = intercalateChar '&' (encPieces d) := rfl

theorem encPiecesMem (d : QDict) (pc : Str) (h : pc ∈ encPieces d) :
    ∃ kv, kv ∈ d ∧ ∃ v, v ∈ kv.2 ∧ pc = quotePlus kv.1 ++ '=' :: quotePlus v := by
  simp only [encPieces, List.mem_flatMap, List.mem_map] at h
  rcases h with ⟨kv, hkv, v, hv, hpc⟩
  exact ⟨kv, hkv, v, hv, hpc.symm⟩

theorem pieceNotMem (c0 : Char) (k v : Str) (hne : c0 ≠ '=') (hq : ∀ s, c0 ∉ quotePlus s) :
    c0 ∉ quotePlus k ++ '=' :: quotePlus v := by
  intro hm
  rcases List.mem_append.mp hm with hm | hm
  · exact hq k hm
  · rcases List.mem_cons.mp hm with he | hm2
    · exact hne he
    · exact hq v hm2

theorem pieceNeNil (k v : Str) : quotePlus k ++ '=' :: quotePlus v ≠ [] := by
  simp

theorem getLastMem (l : Str) (x : Char) (h : l.getLast? = some x) : x ∈ l := by
  have h1 : l.reverse.head? = some x := by rw [List.head?_reverse]; exact h
  have h2 : x ∈ l.reverse := by
    cases hs : l.reverse with
    | nil => rw [hs] at h1; cases h1
    | cons y ys =>
      rw [hs] at h1
      injection h1 with h3
      rw [← h3]
      exact List.mem_cons_self y ys
  exact List.mem_reverse.mp h2

theorem pieceLast (k v : Str) (x : Char)
    (h : (quotePlus k ++ '=' :: quotePlus v).getLast? = some x) :
    x ≠ '&' ∧ x ≠ '?' := by
  rw [List.getLast?_append_of_ne_nil _ (by simp)] at h
  cases hv : quotePlus v with
  | nil =>
    rw [hv] at h
    simp only [List.getLast?_singleton, Option.some.injEq] at h
    subst h
    exact ⟨by decide, by decide⟩
  | cons y ys =>
    rw [hv, List.getLast?_cons_cons] at h
    have hx : x ∈ quotePlus v := by
      rw [hv]
      exact getLastMem _ _ h
    exact ⟨fun he => ampNotMemQuotePlus v (he ▸ hx), fun he => qmarkNotMemQuotePlus v (he ▸ hx)⟩

theorem intercalateNeNil (c : Char) (ps : List Str) (hne : ps ≠ [])
    (hall : ∀ p ∈ ps, p ≠ []) : intercalateChar c ps ≠ [] := by
  cases ps with
  | nil => exact absurd rfl hne
  | cons p rest =>
    cases rest with
    | nil => exact hall p (by simp)
    | cons q qs =>
      show p ++ c :: intercalateChar c (q :: qs) ≠ []
      simp

theorem intercalateLast (c : Char) (ps : List Str) (hne : ps ≠ [])
    (hall : ∀ p ∈ ps, p ≠ []) :
    ∃ pl, pl ∈ ps ∧ (intercalateChar c ps).getLast? = pl.getLast? := by
  induction ps with
  | nil => exact absurd rfl hne
  | cons p rest ih =>
    cases rest with
    | nil => exact ⟨p, by simp, rfl⟩
    | cons q qs =>
      rcases ih (by simp) (fun r hr => hall r (List.mem_cons_of_mem p hr)) with ⟨pl, hpl, hlast⟩
      refine ⟨pl, List.mem_cons_of_mem p hpl, ?_⟩
      show (p ++ c :: intercalateChar c (q :: qs)).getLast? = pl.getLast?
      rw [List.getLast?_append_of_ne_nil _ (by simp)]
      cases hi : intercalateChar c (q :: qs) with
      | nil =>
        exact absurd hi
          (intercalateNeNil c (q :: qs) (by simp)
            (fun r hr => hall r (List.mem_cons_of_mem p hr)))
      | cons z zs =>
        rw [List.getLast?_cons_cons, ← hi, hlast]

/-! ## QDict lemmas -/

theorem qsInsertMem (d : QDict) (k : Str) (v : Str) :
    ∀ e ∈ qsInsert d k v, e.1 ∈ d.map Prod.fst ∨ e.1 = k := by
  induction d with
  | nil =>
    intro e he
    simp only [qsInsert, List.mem_singleton] at he
    subst he
    exact Or.inr rfl
  | cons kv rest ih =>
    intro e he
    obtain ⟨k0, vs⟩ := kv
    unfold qsInsert at he
    by_cases hk : k0 = k
    · rw [if_pos hk] at he
      rcases List.mem_cons.mp he with rfl | hm
      · exact Or.inl (by simp)
      · refine Or.inl ?_
        simp only [List.map_cons]
        exact List.mem_cons_of_mem _ (List.mem_map_of_mem Prod.fst hm)
    · rw [if_neg hk] at he
      rcases List.mem_cons.mp he with rfl | hm
      · exact Or.inl (by simp)
      · rcases ih e hm with h | h
        · exact Or.inl (by simp [h])
        · exact Or.inr h

theorem qsInsertPairwise (d : QDict) (k : Str) (v : Str)
    (h : d.Pairwise (fun a b => a.1 ≠ b.1)) :
    (qsInsert d k v).Pairwise (fun a b => a.1 ≠ b.1) := by
  induction d with
  | nil => simp [qsInsert]
  | cons kv rest ih =>
    obtain ⟨k0, vs⟩ := kv
    rw [List.pairwise_cons] at h
    unfold qsInsert
    by_cases hk : k0 = k
    · rw [if_pos hk]
      exact List.pairwise_cons.mpr ⟨h.1, h.2⟩
    · rw [if_neg hk]
      refine List.pairwise_cons.mpr ⟨?_, ih h.2⟩
      intro e he
      rcases qsInsertMem rest k v e he with hm | hm
      · rcases List.mem_map.mp hm with ⟨kv2, hkv2, hfst⟩
        have := h.1 kv2 hkv2
        rw [← hfst]
        exact this
      · rw [hm]
        exact hk

theorem foldInsertPairwise (l : List (Str × Str)) (d : QDict)
    (h : d.Pairwise (fun a b => a.1 ≠ b.1)) :
    (l.foldl (fun d kv => qsInsert d kv.1 kv.2) d).Pairwise (fun a b => a.1 ≠ b.1) := by
  induction l generalizing d with
  | nil => exact h
  | cons kv rest ih => exact ih _ (qsInsertPairwise d kv.1 kv.2 h)

theorem parseQsPairwise (s : Str) : (parseQs s).Pairwise (fun a b => a.1 ≠ b.1) :=
  foldInsertPairwise _ [] (by simp)

theorem popFoldMem (junks : List Str) (d : QDict) :
    ∀ e ∈ junks.foldl qsPop d, e ∈ d ∧ e.1 ∉ junks := by
  induction junks generalizing d with
  | nil => intro e he; exact ⟨he, by simp⟩
  | cons j js ih =>
    intro e he
    have h1 := ih (qsPop d j) e he
    have h2 := List.mem_filter.mp h1.1
    refine ⟨h2.1, ?_⟩
    intro hm
    rcases List.mem_cons.mp hm with he2 | hm2
    · have := h2.2
      simp only [decide_eq_true_eq] at this
      exact this he2
    · exact h1.2 hm2

theorem popFoldPairwise (junks : List Str) (d : QDict)
    (h : d.Pairwise (fun a b => a.1 ≠ b.1)) :
    (junks.foldl qsPop d).Pairwise (fun a b => a.1 ≠ b.1) := by
  induction junks generalizing d with
  | nil => exact h
  | cons j js ih =>
    exact ih (qsPop d j) (h.sublist (List.filter_sublist d))

theorem qsSetMem (d : QDict) (k : Str) (v : List Str) :
    ∀ e ∈ qsSet d k v, e ∈ d ∨ e = (k, v) := by
  induction d with
  | nil =>
    intro e he
    simp only [qsSet, List.mem_singleton] at he
    exact Or.inr he
  | cons kv rest ih =>
    intro e he
    obtain ⟨k0, vs⟩ := kv
    unfold qsSet at he
    by_cases hk : k0 = k
    · rw [if_pos hk] at he
      rcases List.mem_cons.mp he with rfl | hm
      · exact Or.inr (by rw [hk])
      · exact Or.inl (List.mem_cons_of_mem _ hm)
    · rw [if_neg hk] at he
      rcases List.mem_cons.mp he with rfl | hm
      · exact Or.inl (by simp)
      · rcases ih e hm with h | h
        · exact Or.inl (List.mem_cons_of_mem _ h)
        · exact Or.inr h

theorem qsSetSelfMem (d : QDict) (k : Str) (v : List Str) : (k, v) ∈ qsSet d k v := by
  induction d with
  | nil => simp [qsSet]
  | cons kv rest ih =>
    obtain ⟨k0, vs⟩ := kv
    unfold qsSet
    by_cases hk : k0 = k
    · rw [if_pos hk, hk]
      exact List.mem_cons_self _ _
    · rw [if_neg hk]
      exact List.mem_cons_of_mem _ ih

theorem qsSetPairwise (d : QDict) (k : Str) (v : List Str)
    (h : d.Pairwise (fun a b => a.1 ≠ b.1)) :
    (qsSet d k v).Pairwise (fun a b => a.1 ≠ b.1) := by
  induction d with
  | nil => simp [qsSet]
  | cons kv rest ih =>
    obtain ⟨k0, vs⟩ := kv
    rw [List.pairwise_cons] at h
    unfold qsSet
    by_cases hk : k0 = k
    · rw [if_pos hk]
      exact List.pairwise_cons.mpr ⟨h.1, h.2⟩
    · rw [if_neg hk]
      refine List.pairwise_cons.mpr ⟨?_, ih h.2⟩
      intro e he
      rcases qsSetMem rest k v e he with hm | hm
      · exact h.1 e hm
      · rw [hm]
        exact hk

theorem qsSetLookupSelf (d : QDict) (k : Str) (v : List Str) :
    qsLookup (qsSet d k v) k = some v := by
  induction d with
  | nil => simp [qsSet, qsLookup]
  | cons kv rest ih =>
    obtain ⟨k0, vs⟩ := kv
    unfold qsSet
    by_cases hk : k0 = k
    · rw [if_pos hk]
      unfold qsLookup
      rw [if_pos hk]
    · rw [if_neg hk]
      unfold qsLookup
      rw [if_neg hk]
      exact ih

/-! ## The tag parameter in encoded queries -/

theorem safeNotEq (lit : Str) (hlit : ∀ c ∈ lit, isSafeChar c = true) : '=' ∉ lit := by
  intro hm
  have := hlit '=' hm
  simp [isSafeChar, Char.isAlphanum, Char.isAlpha, Char.isUpper, Char.isLower,
    Char.isDigit] at this

theorem startsWithKeyPieceIff (lit k v : Str) (hlit : ∀ c ∈ lit, isSafeChar c = true) :
    startsWithL (lit ++ ['=']) (quotePlus k ++ '=' :: quotePlus v) = true ↔ k = lit := by
  constructor
  · intro h
    rcases (startsWithLIff _ _).mp h with ⟨t, ht⟩
    have hb1 : breakOnFirst '=' (quotePlus k ++ '=' :: quotePlus v) =
        some (quotePlus k, quotePlus v) :=
      breakOnFirstAppend '=' _ _ (eqNotMemQuotePlus k)
    have hb2 : breakOnFirst '=' (quotePlus k ++ '=' :: quotePlus v) = some (lit, t) := by
      rw [ht, List.append_assoc]
      exact breakOnFirstAppend '=' _ _ (safeNotEq lit hlit)
    rw [hb1] at hb2
    injection hb2 with hb3
    have hkq : quotePlus k = lit := congrArg Prod.fst hb3
    exact quotePlusEqSafe k lit hlit hkq
  · intro h
    subst h
    rw [quotePlusSafeId k hlit, startsWithLIff]
    exact ⟨quotePlus v, by simp⟩

theorem encPiecesFilterNone (d : QDict) (lit : Str) (hlit : ∀ c ∈ lit, isSafeChar c = true)
    (h : ∀ e ∈ d, e.1 ≠ lit) :
    (encPieces d).filter (fun pc => startsWithL (lit ++ ['=']) pc) = [] := by
  rw [List.filter_eq_nil_iff]
  intro pc hpc
  rcases encPiecesMem d pc hpc with ⟨kv, hkv, v, hv, rfl⟩
  intro hst
  exact h kv hkv ((startsWithKeyPieceIff lit kv.1 v hlit).mp hst)

theorem encPiecesFilterLookup (d : QDict) (lit : Str)
    (hlit : ∀ c ∈ lit, isSafeChar c = true) (hp : d.Pairwise (fun a b => a.1 ≠ b.1)) :
    (encPieces d).filter (fun pc => startsWithL (lit ++ ['=']) pc) =
      (match qsLookup d lit with
        | some vs => vs.map (fun v => lit ++ '=' :: quotePlus v)
        | none => []) := by
  induction d with
  | nil => rfl
  | cons kv rest ih =>
    obtain ⟨k0, vs⟩ := kv
    rw [List.pairwise_cons] at hp
    have hsplit : encPieces ((k0, vs) :: rest) =
        vs.map (fun v => quotePlus k0 ++ '=' :: quotePlus v) ++ encPieces rest := rfl
    rw [hsplit, List.filter_append]
    by_cases hk : k0 = lit
    · subst hk
      have h1 : (vs.map (fun v => quotePlus k0 ++ '=' :: quotePlus v)).filter
          (fun pc => startsWithL (k0 ++ ['=']) pc) =
          vs.map (fun v => k0 ++ '=' :: quotePlus v) := by
        rw [List.filter_map]
        have hcomp : ∀ v,
            ((fun pc => startsWithL (k0 ++ ['=']) pc) ∘
              (fun v => quotePlus k0 ++ '=' :: quotePlus v)) v = true := by
          intro v
          exact (startsWithKeyPieceIff k0 k0 v hlit).mpr rfl
        rw [List.filter_eq_self.mpr (fun a ha => hcomp a)]
        rw [quotePlusSafeId k0 hlit]
      have h2 : (encPieces rest).filter (fun pc => startsWithL (k0 ++ ['=']) pc) = [] :=
        encPiecesFilterNone rest k0 hlit (fun e he => (hp.1 e he).symm)
      have hlk : qsLookup ((k0, vs) :: rest) k0 = some vs := by
        show (if k0 = k0 then some vs else qsLookup rest k0) = some vs
        rw [if_pos rfl]
      rw [h1, h2, List.append_nil, hlk]
    · have h1 : (vs.map (fun v => quotePlus k0 ++ '=' :: quotePlus v)).filter
          (fun pc => startsWithL (lit ++ ['=']) pc) = [] := by
        rw [List.filter_eq_nil_iff]
        intro pc hpc
        rcases List.mem_map.mp hpc with ⟨v, hv, rfl⟩
        intro hst
        exact hk ((startsWithKeyPieceIff lit k0 v hlit).mp hst)
      have hlk : qsLookup ((k0, vs) :: rest) lit = qsLookup rest lit := by
        show (if k0 = lit then some vs else qsLookup rest lit) = qsLookup rest lit
        rw [if_neg hk]
      rw [h1, List.nil_append, ih hp.2, hlk]

/-! ## urlsplit decomposition -/

/-- The post-scheme remainder of a URL. -/
def schRest (u : Str) : Str := (parseScheme u).2

def rawNetloc (u : Str) : Str :=
  if startsWithL ['/', '/'] (schRest u) then ((schRest u).drop 2).takeWhile notNetlocEnd
  else []

def rawRest2 (u : Str) : Str :=
  if startsWithL ['/', '/'] (schRest u) then ((schRest u).drop 2).dropWhile notNetlocEnd
  else schRest u

def rawBeforeFrag (u : Str) : Str :=
  match breakOnFirst '#' (rawRest2 u) with
  | some p => p.1
  | none => rawRest2 u

def rawFragment (u : Str) : Str :=
  match breakOnFirst '#' (rawRest2 u) with
  | some p => p.2
  | none => []

def rawPathsec (u : Str) : Str :=
  match breakOnFirst '?' (rawBeforeFrag u) with
  | some p => p.1
  | none => rawBeforeFrag u

def rawQuery (u : Str) : Str :=
  match breakOnFirst '?' (rawBeforeFrag u) with
  | some p => p.2
  | none => []

theorem urlsplitMDecomp (u : Str) :
    urlsplitM u =
      ⟨(parseScheme u).1.getD [], rawNetloc u, rawPathsec u, rawQuery u, rawFragment u⟩ := rfl

/-- A scheme as recognised by the parser: non-empty, alphabetic head, scheme
characters only, already lowercase. -/
def validScheme (s : Str) : Prop :=
  (∃ c t, s = c :: t ∧ c.isAlpha = true) ∧ (∀ c ∈ s, isSchemeChar c = true) ∧ lowerStr s = s

theorem parseSchemeInv (u sch rest : Str) (h : parseScheme u = (some sch, rest)) :
    validScheme sch := by
  unfold parseScheme at h
  cases hb : breakOnFirst ':' u with
  | none => simp [hb] at h
  | some p =>
    obtain ⟨pre, post⟩ := p
    cases pre with
    | nil => simp [hb] at h
    | cons c cs =>
      by_cases hc : (c.isAlpha && (c :: cs).all isSchemeChar) = true
      · simp only [hb, hc, if_true] at h
        injection h with h1 h2
        injection h1 with h1
        rw [Bool.and_eq_true, List.all_eq_true] at hc
        subst h1
        refine ⟨⟨c.toLower, lowerStr cs, rfl, isAlphaToLower c hc.1⟩, ?_, lowerStrIdem _⟩
        intro x hx
        rcases List.mem_map.mp hx with ⟨y, hy, rfl⟩
        exact isSchemeCharToLower y (hc.2 y hy)
      · simp only [hb] at h
        rw [if_neg hc] at h
        injection h with h1 h2
        cases h1

theorem parseSchemeSlash (s : Str) : parseScheme ('/' :: s) = (none, '/' :: s) := by
  unfold parseScheme
  cases hb : breakOnFirst ':' ('/' :: s) with
  | none => rfl
  | some p =>
    obtain ⟨pre, post⟩ := p
    have hdec := breakOnFirstEqSome ':' _ pre post hb
    cases pre with
    | nil => rfl
    | cons x xs =>
      have hx : x = '/' := by
        have h1 : '/' :: s = x :: (xs ++ ':' :: post) := by simpa using hdec.1
        injection h1 with h2
        exact h2.symm
      subst hx
      show (if ('/'.isAlpha && (('/' :: xs).all isSchemeChar)) = true
        then (some (lowerStr ('/' :: xs)), post) else (none, '/' :: s)) = (none, '/' :: s)
      rw [if_neg (by simp [Char.isAlpha, Char.isUpper, Char.isLower])]

theorem urlsplitSchemeValid (u : Str) :
    (urlsplitM u).scheme = [] ∨ validScheme (urlsplitM u).scheme := by
  rw [urlsplitMDecomp]
  cases hps : parseScheme u with
  | mk o rest =>
    cases o with
    | none => exact Or.inl rfl
    | some sch =>
      right
      have := parseSchemeInv u sch rest hps
      simpa using this

theorem rawNetlocChars (u : Str) : ∀ c ∈ rawNetloc u, notNetlocEnd c = true := by
  intro c hc
  unfold rawNetloc at hc
  by_cases hst : startsWithL ['/', '/'] (schRest u) = true
  · rw [if_pos hst] at hc
    exact List.mem_takeWhile_imp hc
  · rw [if_neg hst] at hc
    cases hc

theorem takeWhileAppendAll (p : Char → Bool) (a : Str) (c0 : Char) (b : Str)
    (ha : ∀ x ∈ a, p x = true) (hc : p c0 = false) :
    (a ++ c0 :: b).takeWhile p = a ∧ (a ++ c0 :: b).dropWhile p = c0 :: b := by
  induction a with
  | nil =>
    constructor
    · rw [List.nil_append, List.takeWhile_cons, hc]
      simp
    · rw [List.nil_append, List.dropWhile_cons, hc]
      simp
  | cons x xs ih =>
    have hx : p x = true := ha x (by simp)
    have ih2 := ih (fun y hy => ha y (List.mem_cons_of_mem x hy))
    constructor
    · rw [List.cons_append, List.takeWhile_cons, hx]
      simp only [if_true, ih2.1]
    · rw [List.cons_append, List.dropWhile_cons, hx]
      simp only [if_true, ih2.2]

theorem dropWhileShape (p : Char → Bool) (l : Str) :
    l.dropWhile p = [] ∨ ∃ c t, l.dropWhile p = c :: t ∧ p c = false := by
  induction l with
  | nil => exact Or.inl rfl
  | cons x xs ih =>
    rw [List.dropWhile_cons]
    by_cases hx : p x = true
    · rw [if_pos hx]
      exact ih
    · rw [if_neg hx]
      exact Or.inr ⟨x, xs, rfl, by simpa using hx⟩

theorem notNetlocEndFalse (c : Char) (h : notNetlocEnd c = false) :
    c = '/' ∨ c = '?' ∨ c = '#' := by
  unfold notNetlocEnd at h
  have h2 : (c == '/' || c == '?' || c == '#') = true := by
    rcases Bool.eq_false_or_eq_true (c == '/' || c == '?' || c == '#') with h2 | h2
    · exact h2
    · rw [h2] at h
      cases h
  simp only [Bool.or_eq_true, beq_iff_eq] at h2
  tauto

theorem breakOnFirstConsNe (c x : Char) (xs : Str) (hne : x ≠ c) :
    breakOnFirst c (x :: xs) = none ∨
      ∃ q1 q2, breakOnFirst c (x :: xs) = some (x :: q1, q2) := by
  have hx : (x == c) = false := by simpa using hne
  unfold breakOnFirst
  rw [hx]
  simp only [Bool.false_eq_true, if_false]
  cases breakOnFirst c xs with
  | none => exact Or.inl rfl
  | some p => exact Or.inr ⟨p.1, p.2, rfl⟩

theorem rawPathsecNoQmark (u : Str) : '?' ∉ rawPathsec u := by
  unfold rawPathsec
  cases hb : breakOnFirst '?' (rawBeforeFrag u) with
  | none => exact breakOnFirstNoneImp _ _ hb
  | some p =>
    obtain ⟨a, b⟩ := p
    exact (breakOnFirstEqSome '?' _ a b hb).2

theorem rawPathsecSubBeforeFrag (u : Str) : ∀ x ∈ rawPathsec u, x ∈ rawBeforeFrag u := by
  intro x hx
  unfold rawPathsec at hx
  cases hb : breakOnFirst '?' (rawBeforeFrag u) with
  | none => rw [hb] at hx; exact hx
  | some p =>
    obtain ⟨a, b⟩ := p
    rw [hb] at hx
    rw [(breakOnFirstEqSome '?' _ a b hb).1]
    exact List.mem_append.mpr (Or.inl hx)

theorem rawBeforeFragNoHash (u : Str) : '#' ∉ rawBeforeFrag u := by
  unfold rawBeforeFrag
  cases hb : breakOnFirst '#' (rawRest2 u) with
  | none => exact breakOnFirstNoneImp _ _ hb
  | some p =>
    obtain ⟨a, b⟩ := p
    exact (breakOnFirstEqSome '#' _ a b hb).2

theorem rawPathsecNoHash (u : Str) : '#' ∉ rawPathsec u :=
  fun hm => rawBeforeFragNoHash u (rawPathsecSubBeforeFrag u '#' hm)

theorem rawPathsecShape (u : Str) (hn : rawNetloc u ≠ []) :
    rawPathsec u = [] ∨ ∃ t, rawPathsec u = '/' :: t := by
  have hst : startsWithL ['/', '/'] (schRest u) = true := by
    by_contra hst
    exact hn (by unfold rawNetloc; rw [if_neg hst])
  have hr2 : rawRest2 u = ((schRest u).drop 2).dropWhile notNetlocEnd := by
    unfold rawRest2
    rw [if_pos hst]
  have hshape := dropWhileShape notNetlocEnd ((schRest u).drop 2)
  rw [← hr2] at hshape
  have hbf : rawBeforeFrag u = [] ∨ ∃ t, rawBeforeFrag u = '/' :: t ∨ rawBeforeFrag u = '?' :: t := by
    rcases hshape with h0 | ⟨c, t, hct, hc⟩
    · left
      unfold rawBeforeFrag
      rw [h0]
      rfl
    · rcases notNetlocEndFalse c hc with rfl | rfl | rfl
      · unfold rawBeforeFrag
        rw [hct]
        rcases breakOnFirstConsNe '#' '/' t (by decide) with hb | ⟨q1, q2, hb⟩
        · rw [hb]
          exact Or.inr ⟨t, Or.inl rfl⟩
        · rw [hb]
          exact Or.inr ⟨q1, Or.inl rfl⟩
      · unfold rawBeforeFrag
        rw [hct]
        rcases breakOnFirstConsNe '#' '?' t (by decide) with hb | ⟨q1, q2, hb⟩
        · rw [hb]
          exact Or.inr ⟨t, Or.inr rfl⟩
        · rw [hb]
          exact Or.inr ⟨q1, Or.inr rfl⟩
      · left
        unfold rawBeforeFrag
        rw [hct]
        have hb : breakOnFirst '#' ('#' :: t) = some ([], t) := by
          unfold breakOnFirst
          simp
        rw [hb]
  rcases hbf with h0 | ⟨t, ht | ht⟩
  · left
    unfold rawPathsec
    rw [h0]
    rfl
  · unfold rawPathsec
    rw [ht]
    rcases breakOnFirstConsNe '?' '/' t (by decide) with hb | ⟨q1, q2, hb⟩
    · rw [hb]
      exact Or.inr ⟨t, rfl⟩
    · rw [hb]
      exact Or.inr ⟨q1, rfl⟩
  · left
    unfold rawPathsec
    rw [ht]
    have hb : breakOnFirst '?' ('?' :: t) = some ([], t) := by
      unfold breakOnFirst
      simp
    rw [hb]

theorem schRestSub (u : Str) : ∀ x ∈ schRest u, x ∈ u := by
  intro x hx
  unfold schRest parseScheme at hx
  cases hb : breakOnFirst ':' u with
  | none => rw [hb] at hx; exact hx
  | some p =>
    obtain ⟨pre, post⟩ := p
    rw [hb] at hx
    have hdec := (breakOnFirstEqSome ':' u pre post hb).1
    cases pre with
    | nil => exact hx
    | cons c cs =>
      by_cases hc : (c.isAlpha && (c :: cs).all isSchemeChar) = true
      · simp only [hc, if_true] at hx
        rw [hdec]
        exact List.mem_append.mpr (Or.inr (List.mem_cons_of_mem ':' hx))
      · simp only [] at hx
        rw [if_neg hc] at hx
        exact hx

theorem rawRest2Sub (u : Str) : ∀ x ∈ rawRest2 u, x ∈ u := by
  intro x hx
  unfold rawRest2 at hx
  by_cases hst : startsWithL ['/', '/'] (schRest u) = true
  · rw [if_pos hst] at hx
    exact schRestSub u x
      ((List.drop_sublist 2 (schRest u)).mem ((List.dropWhile_sublist _).mem hx))
  · rw [if_neg hst] at hx
    exact schRestSub u x hx

theorem rawBeforeFragSub (u : Str) : ∀ x ∈ rawBeforeFrag u, x ∈ rawRest2 u := by
  intro x hx
  unfold rawBeforeFrag at hx
  cases hb : breakOnFirst '#' (rawRest2 u) with
  | none => rw [hb] at hx; exact hx
  | some p =>
    obtain ⟨a, b⟩ := p
    rw [hb] at hx
    rw [(breakOnFirstEqSome '#' _ a b hb).1]
    exact List.mem_append.mpr (Or.inl hx)

theorem rawQuerySub (u : Str) : ∀ x ∈ rawQuery u, x ∈ u := by
  intro x hx
  unfold rawQuery at hx
  cases hb : breakOnFirst '?' (rawBeforeFrag u) with
  | none => rw [hb] at hx; cases hx
  | some p =>
    obtain ⟨a, b⟩ := p
    rw [hb] at hx
    have h1 : x ∈ rawBeforeFrag u := by
      rw [(breakOnFirstEqSome '?' _ a b hb).1]
      exact List.mem_append.mpr (Or.inr (List.mem_cons_of_mem '?' hx))
    exact rawRest2Sub u x (rawBeforeFragSub u x h1)

theorem rawFragmentEmpty (u : Str) (h : '#' ∉ u) : rawFragment u = [] := by
  unfold rawFragment
  have h2 : '#' ∉ rawRest2 u := fun hm => h (rawRest2Sub u '#' hm)
  rw [breakOnFirstNone '#' _ h2]

theorem rawQueryNoHash (u : Str) : '#' ∉ rawQuery u := by
  intro hx
  unfold rawQuery at hx
  cases hb : breakOnFirst '?' (rawBeforeFrag u) with
  | none => rw [hb] at hx; cases hx
  | some p =>
    obtain ⟨a, b⟩ := p
    rw [hb] at hx
    have h1 : '#' ∈ rawBeforeFrag u := by
      rw [(breakOnFirstEqSome '?' _ a b hb).1]
      exact List.mem_append.mpr (Or.inr (List.mem_cons_of_mem '?' hx))
    exact rawBeforeFragNoHash u h1

/-! ## Round-trip: rebuilding and re-parsing a URL -/

def qPart (q : Str) : Str := if q = [] then [] else '?' :: q

def fragTail (f : Option Str) : Str :=
  match f with
  | some fr => '#' :: fr
  | none => []

/-- Canonical form of the strings produced by `urlunsplitM` for URLs with a
non-empty netloc. -/
def mkUrl (sch nl ps q : Str) (f : Option Str) : Str :=
  (if sch = [] then [] else sch ++ [':']) ++
    '/' :: '/' :: (nl ++ (ps ++ qPart q ++ fragTail f))

theorem urlunsplitEqMk (p : UrlParts) (hn : p.netloc ≠ [])
    (hps : p.pathsec = [] ∨ ∃ t, p.pathsec = '/' :: t) :
    urlunsplitM p = mkUrl p.scheme p.netloc p.pathsec p.query
      (if p.fragment = [] then none else some p.fragment) := by
  unfold urlunsplitM mkUrl qPart fragTail
  have hne : p.netloc.isEmpty = false := by simpa [List.isEmpty_iff] using hn
  have hinner : (if !p.pathsec.isEmpty && !startsWithL ['/'] p.pathsec then '/' :: p.pathsec
      else p.pathsec) = p.pathsec := by
    rcases hps with h0 | ⟨t, ht⟩
    · rw [h0]
      simp
    · rw [ht]
      simp [startsWithL]
  rw [hinner]
  by_cases hsch : p.scheme = []
  · rw [hsch]
    by_cases hq : p.query = []
    · rw [hq]
      by_cases hf : p.fragment = []
      · rw [hf]
        simp [hne, List.append_assoc]
      · rw [if_neg hf]
        simp [hne, hf, List.append_assoc]
    · rw [if_neg hq]
      by_cases hf : p.fragment = []
      · rw [hf]
        simp [hne, hq, List.append_assoc]
      · rw [if_neg hf]
        simp [hne, hq, hf, List.append_assoc]
  · rw [if_neg hsch]
    by_cases hq : p.query = []
    · rw [hq]
      by_cases hf : p.fragment = []
      · rw [hf]
        simp [hne, hsch, List.append_assoc]
      · rw [if_neg hf]
        simp [hne, hsch, hf, List.append_assoc]
    · rw [if_neg hq]
      by_cases hf : p.fragment = []
      · rw [hf]
        simp [hne, hsch, hq, List.append_assoc]
      · rw [if_neg hf]
        simp [hne, hsch, hq, hf, List.append_assoc]

theorem netlocSplit (nl S : Str) (hnc : ∀ c ∈ nl, notNetlocEnd c = true)
    (hS : S = [] ∨ ∃ c0 S2, S = c0 :: S2 ∧ notNetlocEnd c0 = false) :
    (nl ++ S).takeWhile notNetlocEnd = nl ∧ (nl ++ S).dropWhile notNetlocEnd = S := by
  rcases hS with rfl | ⟨c0, S2, rfl, hc0⟩
  · rw [List.append_nil]
    exact ⟨List.takeWhile_eq_self_iff.mpr hnc, List.dropWhile_eq_nil_iff.mpr hnc⟩
  · exact takeWhileAppendAll notNetlocEnd nl c0 S2 hnc hc0

theorem suffixShape (ps q : Str) (f : Option Str)
    (hps : ps = [] ∨ ∃ t, ps = '/' :: t) :
    ps ++ qPart q ++ fragTail f = [] ∨
      ∃ c0 S2, ps ++ qPart q ++ fragTail f = c0 :: S2 ∧ notNetlocEnd c0 = false := by
  rcases hps with rfl | ⟨t, rfl⟩
  · cases q with
    | nil =>
      cases f with
      | none => exact Or.inl rfl
      | some fr => exact Or.inr ⟨'#', fr, rfl, by decide⟩
    | cons x xs =>
      exact Or.inr ⟨'?', (x :: xs) ++ fragTail f, by simp [qPart, List.append_assoc], by decide⟩
  · exact Or.inr ⟨'/', (t ++ qPart q) ++ fragTail f, by simp [List.append_assoc], by decide⟩

theorem fragSplit (ps q : Str) (f : Option Str) (hp3 : '#' ∉ ps) (hq : '#' ∉ q) :
    (f = none → breakOnFirst '#' (ps ++ qPart q ++ fragTail f) = none) ∧
    (∀ fr, f = some fr →
      breakOnFirst '#' (ps ++ qPart q ++ fragTail f) = some (ps ++ qPart q, fr)) := by
  have hpq : '#' ∉ ps ++ qPart q := by
    intro hm
    rcases List.mem_append.mp hm with hm | hm
    · exact hp3 hm
    · unfold qPart at hm
      by_cases hqe : q = []
      · rw [if_pos hqe] at hm
        cases hm
      · rw [if_neg hqe] at hm
        rcases List.mem_cons.mp hm with he | hm2
        · exact absurd he (by decide)
        · exact hq hm2
  constructor
  · rintro rfl
    rw [show fragTail none = [] from rfl, List.append_nil]
    exact breakOnFirstNone '#' _ hpq
  · rintro fr rfl
    rw [show fragTail (some fr) = '#' :: fr from rfl]
    exact breakOnFirstAppend '#' _ fr hpq

theorem querySplit (ps q : Str) (hp2 : '?' ∉ ps) :
    (q = [] → breakOnFirst '?' (ps ++ qPart q) = none) ∧
    (q ≠ [] → breakOnFirst '?' (ps ++ qPart q) = some (ps, q)) := by
  constructor
  · rintro rfl
    rw [show qPart [] = [] from rfl, List.append_nil]
    exact breakOnFirstNone '?' ps hp2
  · intro hq
    unfold qPart
    rw [if_neg hq]
    exact breakOnFirstAppend '?' ps q hp2

theorem urlsplitMk (sch nl ps q : Str) (f : Option Str)
    (hs : sch = [] ∨ validScheme sch)
    (_hn : nl ≠ [])
    (hnc : ∀ c ∈ nl, notNetlocEnd c = true)
    (hps : ps = [] ∨ ∃ t, ps = '/' :: t)
    (hp2 : '?' ∉ ps) (hp3 : '#' ∉ ps)
    (hq : '#' ∉ q) :
    urlsplitM (mkUrl sch nl ps q f) = ⟨sch, nl, ps, q, f.getD []⟩ := by
  have hA : parseScheme (mkUrl sch nl ps q f) =
      (if sch = [] then none else some sch, '/' :: '/' :: (nl ++ (ps ++ qPart q ++ fragTail f))) := by
    rcases hs with rfl | hv
    · rw [if_pos rfl]
      unfold mkUrl
      rw [if_pos rfl, List.nil_append]
      exact parseSchemeSlash _
    · have hsne : sch ≠ [] := by
        rcases hv.1 with ⟨c, t, hct, _⟩
        rw [hct]
        simp
      rw [if_neg hsne]
      have hform : mkUrl sch nl ps q f =
          sch ++ ':' :: ('/' :: '/' :: (nl ++ (ps ++ qPart q ++ fragTail f))) := by
        unfold mkUrl
        rw [if_neg hsne, List.append_assoc]
        rfl
      rw [hform]
      have hcolon : ':' ∉ sch := fun hm => isSchemeCharNeColon ':' (hv.2.1 ':' hm) rfl
      have hb : breakOnFirst ':' (sch ++ ':' ::
          ('/' :: '/' :: (nl ++ (ps ++ qPart q ++ fragTail f)))) =
          some (sch, '/' :: '/' :: (nl ++ (ps ++ qPart q ++ fragTail f))) :=
        breakOnFirstAppend ':' _ _ hcolon
      unfold parseScheme
      rw [hb]
      rcases hv.1 with ⟨c, t, hct, hca⟩
      rw [hct]
      have hcond : (c.isAlpha && (c :: t).all isSchemeChar) = true := by
        rw [Bool.and_eq_true, List.all_eq_true]
        exact ⟨hca, fun x hx => hv.2.1 x (hct ▸ hx)⟩
      show (if (c.isAlpha && (c :: t).all isSchemeChar) = true
          then (some (lowerStr (c :: t)), '/' :: '/' :: (nl ++ (ps ++ qPart q ++ fragTail f)))
          else (none, c :: t ++ ':' :: '/' :: '/' :: (nl ++ (ps ++ qPart q ++ fragTail f)))) =
        (some (c :: t), '/' :: '/' :: (nl ++ (ps ++ qPart q ++ fragTail f)))
      rw [if_pos hcond]
      rw [show lowerStr (c :: t) = c :: t from by rw [← hct]; exact hv.2.2]
  have hrest : schRest (mkUrl sch nl ps q f) =
      '/' :: '/' :: (nl ++ (ps ++ qPart q ++ fragTail f)) := by
    unfold schRest
    rw [hA]
  have hstart : startsWithL ['/', '/'] (schRest (mkUrl sch nl ps q f)) = true := by
    rw [hrest]
    simp [startsWithL]
  have hdrop : (schRest (mkUrl sch nl ps q f)).drop 2 =
      nl ++ (ps ++ qPart q ++ fragTail f) := by
    rw [hrest]
    rfl
  have hNS := netlocSplit nl (ps ++ qPart q ++ fragTail f) hnc (suffixShape ps q f hps)
  have hnet : rawNetloc (mkUrl sch nl ps q f) = nl := by
    unfold rawNetloc
    rw [if_pos hstart, hdrop]
    exact hNS.1
  have hrest2 : rawRest2 (mkUrl sch nl ps q f) = ps ++ qPart q ++ fragTail f := by
    unfold rawRest2
    rw [if_pos hstart, hdrop]
    exact hNS.2
  have hFS := fragSplit ps q f hp3 hq
  have hbf : rawBeforeFrag (mkUrl sch nl ps q f) = ps ++ qPart q ∧
      rawFragment (mkUrl sch nl ps q f) = f.getD [] := by
    unfold rawBeforeFrag rawFragment
    rw [hrest2]
    cases f with
    | none =>
      rw [hFS.1 rfl]
      exact ⟨by rw [show fragTail (none : Option Str) = [] from rfl, List.append_nil], rfl⟩
    | some fr =>
      rw [hFS.2 fr rfl]
      exact ⟨rfl, rfl⟩
  have hQS := querySplit ps q hp2
  have hpq : rawPathsec (mkUrl sch nl ps q f) = ps ∧ rawQuery (mkUrl sch nl ps q f) = q := by
    unfold rawPathsec rawQuery
    rw [hbf.1]
    by_cases hqe : q = []
    · rw [hQS.1 hqe]
      subst hqe
      exact ⟨by rw [show qPart [] = [] from rfl, List.append_nil], rfl⟩
    · rw [hQS.2 hqe]
      exact ⟨rfl, rfl⟩
  rw [urlsplitMDecomp, hA]
  rcases hs with rfl | hv
  · rw [if_pos rfl, hnet, hpq.1, hpq.2, hbf.2]
    rfl
  · have hsne : sch ≠ [] := by
      rcases hv.1 with ⟨c, t, hct, _⟩
      rw [hct]
      simp
    rw [if_neg hsne, hnet, hpq.1, hpq.2, hbf.2]
    rfl

/-! ## Properties of normalised links -/

theorem intercalateMem (c : Char) (ps : List Str) (x : Char)
    (h : x ∈ intercalateChar c ps) : x = c ∨ ∃ p ∈ ps, x ∈ p := by
  induction ps with
  | nil => cases h
  | cons p rest ih =>
    cases rest with
    | nil => exact Or.inr ⟨p, by simp, h⟩
    | cons q qs =>
      have h2 : x ∈ p ++ c :: intercalateChar c (q :: qs) := h
      rcases List.mem_append.mp h2 with hm | hm
      · exact Or.inr ⟨p, by simp, hm⟩
      · rcases List.mem_cons.mp hm with rfl | hm2
        · exact Or.inl rfl
        · rcases ih hm2 with h3 | ⟨r, hr, hxr⟩
          · exact Or.inl h3
          · exact Or.inr ⟨r, List.mem_cons_of_mem p hr, hxr⟩

theorem normalizeOkInv (res : Str → Str) (raw tag clean : Str)
    (h : normalizeAmazonLink res raw tag = Except.ok clean) :
    amazonHostOk (lowerStr (urlsplitM (res (extractEmbeddedUrl raw))).netloc) = true ∧
    clean = dropTrailing (fun c => c == '&' || c == '?')
      (urlunsplitM { urlsplitM (res (extractEmbeddedUrl raw)) with
        query := urlencodeM (qsSet (JUNK_PARAMS.foldl qsPop
          (parseQs (urlsplitM (res (extractEmbeddedUrl raw))).query)) "tag".data [tag]) }) := by
  unfold normalizeAmazonLink at h
  by_cases hok :
      amazonHostOk (lowerStr (urlsplitM (res (extractEmbeddedUrl raw))).netloc) = true
  · simp only [hok, if_true] at h
    injection h with h2
    exact ⟨hok, h2.symm⟩
  · simp only [] at h
    rw [if_neg hok] at h
    cases h

theorem amazonHostOkNeNil (host : Str) (h : amazonHostOk host = true) : host ≠ [] := by
  intro he
  rw [he] at h
  cases h

theorem lowerStrNeNil (s : Str) (h : lowerStr s ≠ []) : s ≠ [] := by
  intro he
  rw [he] at h
  exact h rfl

/-- The query built by the normaliser: its pieces, non-emptiness, absence of
`#`, and a last character that the trailing-strip leaves alone. -/
theorem urlencodeQueryFacts (d : QDict) (k0 : Str) (v0 : List Str)
    (hmem : (k0, v0) ∈ d) (hv0 : v0 ≠ []) :
    encPieces d ≠ [] ∧ urlencodeM d ≠ [] ∧ '#' ∉ urlencodeM d ∧
    ∃ x, (urlencodeM d).getLast? = some x ∧ ((x == '&' || x == '?') = false) := by
  obtain ⟨v, vs, hv⟩ : ∃ v vs, v0 = v :: vs := by
    cases v0 with
    | nil => exact absurd rfl hv0
    | cons v vs => exact ⟨v, vs, rfl⟩
  have hpcmem : ∃ pc, pc ∈ encPieces d := by
    refine ⟨quotePlus k0 ++ '=' :: quotePlus v, ?_⟩
    unfold encPieces
    rw [List.mem_flatMap]
    refine ⟨(k0, v0), hmem, ?_⟩
    rw [show (k0, v0).2 = v0 from rfl, hv]
    exact List.mem_map_of_mem _ (List.mem_cons_self v vs)
  rcases hpcmem with ⟨pc0, hpc0⟩
  have hne : encPieces d ≠ [] := List.ne_nil_of_mem hpc0
  have hallne : ∀ pc ∈ encPieces d, pc ≠ [] := by
    intro pc hpc
    rcases encPiecesMem d pc hpc with ⟨kv, _, v, _, rfl⟩
    exact pieceNeNil kv.1 v
  have hqne : urlencodeM d ≠ [] := by
    rw [urlencodeEqPieces]
    exact intercalateNeNil '&' _ hne hallne
  have hnh : '#' ∉ urlencodeM d := by
    rw [urlencodeEqPieces]
    intro hm
    rcases intercalateMem '&' _ '#' hm with he | ⟨pc, hpc, hxm⟩
    · exact absurd he (by decide)
    · rcases encPiecesMem d pc hpc with ⟨kv, _, v, _, rfl⟩
      exact pieceNotMem '#' kv.1 v (by decide) hashNotMemQuotePlus hxm
  have hlast : ∃ x, (urlencodeM d).getLast? = some x ∧ ((x == '&' || x == '?') = false) := by
    rw [urlencodeEqPieces]
    rcases intercalateLast '&' _ hne hallne with ⟨pl, hpl, hlast⟩
    rcases encPiecesMem d pl hpl with ⟨kv, _, v, _, rfl⟩
    cases hgl : (quotePlus kv.1 ++ '=' :: quotePlus v).getLast? with
    | none =>
      exfalso
      rw [List.getLast?_eq_none_iff] at hgl
      exact pieceNeNil kv.1 v hgl
    | some x =>
      have hx := pieceLast kv.1 v x hgl
      refine ⟨x, by rw [hlast, hgl], ?_⟩
      simp [hx.1, hx.2]
  exact ⟨hne, hqne, hnh, hlast⟩

theorem mkUrlReassocNone (sch nl ps Q : Str) (hQ : Q ≠ []) :
    mkUrl sch nl ps Q none =
      ((if sch = [] then [] else sch ++ [':']) ++ '/' :: '/' :: (nl ++ ps)) ++ '?' :: Q := by
  unfold mkUrl qPart fragTail
  rw [if_neg hQ]
  simp [List.append_assoc]

theorem mkUrlReassocSome (sch nl ps Q fr : Str) :
    mkUrl sch nl ps Q (some fr) = mkUrl sch nl ps Q none ++ '#' :: fr := by
  unfold mkUrl qPart fragTail
  simp [List.append_assoc]

theorem normalizeCleanSplit (res : Str → Str) (raw tag clean : Str)
    (h : normalizeAmazonLink res raw tag = Except.ok clean) :
    ∃ f2 : Option Str,
      clean = mkUrl (urlsplitM (res (extractEmbeddedUrl raw))).scheme
        (urlsplitM (res (extractEmbeddedUrl raw))).netloc
        (urlsplitM (res (extractEmbeddedUrl raw))).pathsec
        (urlencodeM (qsSet (JUNK_PARAMS.foldl qsPop
          (parseQs (urlsplitM (res (extractEmbeddedUrl raw))).query)) "tag".data [tag])) f2 ∧
      urlsplitM clean =
        ⟨(urlsplitM (res (extractEmbeddedUrl raw))).scheme,
          (urlsplitM (res (extractEmbeddedUrl raw))).netloc,
          (urlsplitM (res (extractEmbeddedUrl raw))).pathsec,
          urlencodeM (qsSet (JUNK_PARAMS.foldl qsPop
            (parseQs (urlsplitM (res (extractEmbeddedUrl raw))).query)) "tag".data [tag]),
          f2.getD []⟩ ∧
      ((urlsplitM (res (extractEmbeddedUrl raw))).fragment = [] → f2 = none) := by
  obtain ⟨hok, hclean⟩ := normalizeOkInv res raw tag clean h
  have hnl : (urlsplitM (res (extractEmbeddedUrl raw))).netloc ≠ [] :=
    lowerStrNeNil _ (amazonHostOkNeNil _ hok)
  have hnlr : rawNetloc (res (extractEmbeddedUrl raw)) ≠ [] := hnl
  have hpshape : (urlsplitM (res (extractEmbeddedUrl raw))).pathsec = [] ∨
      ∃ t, (urlsplitM (res (extractEmbeddedUrl raw))).pathsec = '/' :: t :=
    rawPathsecShape _ hnlr
  have hsv : (urlsplitM (res (extractEmbeddedUrl raw))).scheme = [] ∨
      validScheme (urlsplitM (res (extractEmbeddedUrl raw))).scheme :=
    urlsplitSchemeValid _
  have hnc : ∀ c ∈ (urlsplitM (res (extractEmbeddedUrl raw))).netloc, notNetlocEnd c = true :=
    rawNetlocChars _
  have hp2 : '?' ∉ (urlsplitM (res (extractEmbeddedUrl raw))).pathsec := rawPathsecNoQmark _
  have hp3 : '#' ∉ (urlsplitM (res (extractEmbeddedUrl raw))).pathsec := rawPathsecNoHash _
  have hQfacts := urlencodeQueryFacts
    (qsSet (JUNK_PARAMS.foldl qsPop
      (parseQs (urlsplitM (res (extractEmbeddedUrl raw))).query)) "tag".data [tag])
    "tag".data [tag] (qsSetSelfMem _ _ _) (by simp)
  obtain ⟨hpne, hQne, hQnh, x, hxlast, hxok⟩ := hQfacts
  have hun := urlunsplitEqMk
    { urlsplitM (res (extractEmbeddedUrl raw)) with
      query := urlencodeM (qsSet (JUNK_PARAMS.foldl qsPop
        (parseQs (urlsplitM (res (extractEmbeddedUrl raw))).query)) "tag".data [tag]) }
    hnl hpshape
  rw [hun] at hclean
  have hclean2 : clean = dropTrailing (fun c => c == '&' || c == '?')
      (mkUrl (urlsplitM (res (extractEmbeddedUrl raw))).scheme
        (urlsplitM (res (extractEmbeddedUrl raw))).netloc
        (urlsplitM (res (extractEmbeddedUrl raw))).pathsec
        (urlencodeM (qsSet (JUNK_PARAMS.foldl qsPop
          (parseQs (urlsplitM (res (extractEmbeddedUrl raw))).query)) "tag".data [tag]))
        (if (urlsplitM (res (extractEmbeddedUrl raw))).fragment = [] then none
          else some (urlsplitM (res (extractEmbeddedUrl raw))).fragment)) := hclean
  have hlastQ : (((if (urlsplitM (res (extractEmbeddedUrl raw))).scheme = [] then []
        else (urlsplitM (res (extractEmbeddedUrl raw))).scheme ++ [':']) ++
        '/' :: '/' :: ((urlsplitM (res (extractEmbeddedUrl raw))).netloc ++
          (urlsplitM (res (extractEmbeddedUrl raw))).pathsec)) ++
      '?' :: urlencodeM (qsSet (JUNK_PARAMS.foldl qsPop
        (parseQs (urlsplitM (res (extractEmbeddedUrl raw))).query)) "tag".data
        [tag])).getLast? = some x := by
    rw [List.getLast?_append_of_ne_nil _ (by simp)]
    cases hQ : urlencodeM (qsSet (JUNK_PARAMS.foldl qsPop
        (parseQs (urlsplitM (res (extractEmbeddedUrl raw))).query)) "tag".data [tag]) with
    | nil => exact absurd hQ hQne
    | cons y ys =>
      rw [List.getLast?_cons_cons, ← hQ]
      exact hxlast
  by_cases hf : (urlsplitM (res (extractEmbeddedUrl raw))).fragment = []
  · rw [if_pos hf] at hclean2
    have hstrip : clean = mkUrl (urlsplitM (res (extractEmbeddedUrl raw))).scheme
        (urlsplitM (res (extractEmbeddedUrl raw))).netloc
        (urlsplitM (res (extractEmbeddedUrl raw))).pathsec
        (urlencodeM (qsSet (JUNK_PARAMS.foldl qsPop
          (parseQs (urlsplitM (res (extractEmbeddedUrl raw))).query)) "tag".data [tag]))
        none := by
      rw [hclean2, mkUrlReassocNone _ _ _ _ hQne]
      exact dropTrailingLast _ _ x hlastQ hxok
    refine ⟨none, hstrip, ?_, fun _ => rfl⟩
    rw [hstrip]
    exact urlsplitMk _ _ _ _ none hsv hnl hnc hpshape hp2 hp3 hQnh
  · rw [if_neg hf] at hclean2
    have hstrip : clean = mkUrl (urlsplitM (res (extractEmbeddedUrl raw))).scheme
        (urlsplitM (res (extractEmbeddedUrl raw))).netloc
        (urlsplitM (res (extractEmbeddedUrl raw))).pathsec
        (urlencodeM (qsSet (JUNK_PARAMS.foldl qsPop
          (parseQs (urlsplitM (res (extractEmbeddedUrl raw))).query)) "tag".data [tag]))
        (some (dropTrailing (fun c => c == '&' || c == '?')
          (urlsplitM (res (extractEmbeddedUrl raw))).fragment)) := by
      rw [hclean2, mkUrlReassocSome, dropTrailingPivot _ _ _ '#' (by decide),
        ← mkUrlReassocSome]
    refine ⟨some (dropTrailing (fun c => c == '&' || c == '?')
      (urlsplitM (res (extractEmbeddedUrl raw))).fragment), hstrip, ?_,
      fun hc => absurd hc hf⟩
    rw [hstrip]
    exact urlsplitMk _ _ _ _ _ hsv hnl hnc hpshape hp2 hp3 hQnh

theorem normalizeLinkProps (res : Str → Str) (raw tag clean : Str)
    (htag : ∀ c ∈ tag, isSafeChar c = true)
    (h : normalizeAmazonLink res raw tag = Except.ok clean) :
    amazonHostOk (lowerStr (urlsplitM clean).netloc) = true ∧
    (splitOnChar '&' (urlsplitM clean).query).filter
      (fun pc => startsWithL ("tag".data ++ ['=']) pc) = ["tag".data ++ '=' :: tag] := by
  obtain ⟨hok, _⟩ := normalizeOkInv res raw tag clean h
  obtain ⟨f2, _, hsplit, _⟩ := normalizeCleanSplit res raw tag clean h
  have hQfacts := urlencodeQueryFacts
    (qsSet (JUNK_PARAMS.foldl qsPop
      (parseQs (urlsplitM (res (extractEmbeddedUrl raw))).query)) "tag".data [tag])
    "tag".data [tag] (qsSetSelfMem _ _ _) (by simp)
  obtain ⟨hpne, _, _, _, _, _⟩ := hQfacts
  have hamps : ∀ p ∈ encPieces (qsSet (JUNK_PARAMS.foldl qsPop
      (parseQs (urlsplitM (res (extractEmbeddedUrl raw))).query)) "tag".data [tag]),
      '&' ∉ p := by
    intro p hp
    rcases encPiecesMem _ p hp with ⟨kv, hkv, v, hv, rfl⟩
    exact pieceNotMem '&' kv.1 v (by decide) ampNotMemQuotePlus
  have hlit : ∀ c ∈ ("tag".data : Str), isSafeChar c = true := by decide
  have hpair : (qsSet (JUNK_PARAMS.foldl qsPop
      (parseQs (urlsplitM (res (extractEmbeddedUrl raw))).query)) "tag".data
      [tag]).Pairwise (fun a b => a.1 ≠ b.1) :=
    qsSetPairwise _ _ _ (popFoldPairwise _ _ (parseQsPairwise _))
  have hlk := qsSetLookupSelf (JUNK_PARAMS.foldl qsPop
    (parseQs (urlsplitM (res (extractEmbeddedUrl raw))).query)) "tag".data [tag]
  constructor
  · rw [hsplit]
    exact hok
  · rw [hsplit]
    show (splitOnChar '&' (urlencodeM (qsSet (JUNK_PARAMS.foldl qsPop
        (parseQs (urlsplitM (res (extractEmbeddedUrl raw))).query)) "tag".data
        [tag]))).filter (fun pc => startsWithL ("tag".data ++ ['=']) pc) =
      ["tag".data ++ '=' :: tag]
    rw [urlencodeEqPieces, splitOnCharIntercalate '&' _ hpne hamps,
      encPiecesFilterLookup _ _ hlit hpair, hlk]
    simp [quotePlusSafeId tag htag]

theorem safeNotMem (c0 : Char) (hc0 : isSafeChar c0 = false) (s : Str)
    (h : ∀ c ∈ s, isSafeChar c = true) : c0 ∉ s := by
  intro hm
  rw [h c0 hm] at hc0
  cases hc0

theorem buildSearchProps (t tag : Str) (htag : ∀ c ∈ tag, isSafeChar c = true) :
    amazonHostOk (lowerStr (urlsplitM (buildAmazonSearchLink t tag)).netloc) = true ∧
    (splitOnChar '&' (urlsplitM (buildAmazonSearchLink t tag)).query).filter
      (fun pc => startsWithL ("tag".data ++ ['=']) pc) = ["tag".data ++ '=' :: tag] := by
  have hamp : '&' ∉ tag := safeNotMem '&' (by decide) tag htag
  have hh : '#' ∉ tag := safeNotMem '#' (by decide) tag htag
  have hQnh : '#' ∉ ("k=".data ++ quotePlus (pyStrip t) ++ ("&tag=".data ++ tag) : Str) := by
    intro hm
    rcases List.mem_append.mp hm with hm1 | hm2
    · rcases List.mem_append.mp hm1 with hm3 | hm4
      · exact absurd hm3 (by decide)
      · exact hashNotMemQuotePlus _ hm4
    · rcases List.mem_append.mp hm2 with hm3 | hm4
      · exact absurd hm3 (by decide)
      · exact hh hm4
  have hEq : buildAmazonSearchLink t tag =
      mkUrl "https".data "www.amazon.com".data "/s".data
        ("k=".data ++ quotePlus (pyStrip t) ++ ("&tag=".data ++ tag)) none := by
    unfold buildAmazonSearchLink mkUrl qPart fragTail
    rw [if_neg (show ¬("https".data : Str) = [] by decide),
      if_neg (show ¬("k=".data ++ quotePlus (pyStrip t) ++ ("&tag=".data ++ tag) : Str)
          = [] by
        intro hc
        rw [List.append_eq_nil, List.append_eq_nil] at hc
        exact absurd hc.1.1 (by decide))]
    rw [show ("https://www.amazon.com/s?k=".data : Str) =
        ("https".data ++ [':']) ++ '/' :: '/' :: ("www.amazon.com".data ++
          ("/s".data ++ '?' :: "k=".data)) from by decide]
    simp [List.append_assoc]
  have hsplitU : urlsplitM (buildAmazonSearchLink t tag) =
      ⟨"https".data, "www.amazon.com".data, "/s".data,
        "k=".data ++ quotePlus (pyStrip t) ++ ("&tag=".data ++ tag), []⟩ := by
    rw [hEq]
    exact urlsplitMk _ _ _ _ none
      (Or.inr ⟨⟨'h', ['t', 't', 'p', 's'], by decide, by decide⟩, by decide, by decide⟩)
      (by decide) (by decide) (Or.inr ⟨['s'], by decide⟩) (by decide) (by decide) hQnh
  have hassoc : ("k=".data ++ quotePlus (pyStrip t) ++ ("&tag=".data ++ tag) : Str) =
      ("k=".data ++ quotePlus (pyStrip t)) ++ '&' :: ("tag".data ++ '=' :: tag) := by
    rw [show ("&tag=".data : Str) = '&' :: ("tag".data ++ ['=']) from by decide]
    simp [List.append_assoc]
  have hA : '&' ∉ ("k=".data ++ quotePlus (pyStrip t) : Str) := by
    intro hm
    rcases List.mem_append.mp hm with hm1 | hm2
    · exact absurd hm1 (by decide)
    · exact ampNotMemQuotePlus _ hm2
  have hB : '&' ∉ ("tag".data ++ '=' :: tag : Str) := by
    intro hm
    rcases List.mem_append.mp hm with hm1 | hm2
    · exact absurd hm1 (by decide)
    · rcases List.mem_cons.mp hm2 with hm3 | hm4
      · cases hm3
      · exact hamp hm4
  have hpA : startsWithL ("tag".data ++ ['=']) ("k=".data ++ quotePlus (pyStrip t)) = false := by
    rw [show ("tag".data ++ ['='] : Str) = 't' :: 'a' :: 'g' :: '=' :: [] from by decide]
    rfl
  have hpB : startsWithL ("tag".data ++ ['=']) ("tag".data ++ '=' :: tag) = true := by
    rw [startsWithLIff]
    exact ⟨tag, by simp⟩
  constructor
  · rw [hsplitU]
    show amazonHostOk (lowerStr "www.amazon.com".data) = true
    decide
  · rw [hsplitU]
    show (splitOnChar '&' ("k=".data ++ quotePlus (pyStrip t) ++
        ("&tag=".data ++ tag))).filter (fun pc => startsWithL ("tag".data ++ ['=']) pc) =
      ["tag".data ++ '=' :: tag]
    rw [hassoc, splitOnCharAppend _ _ _ hA, splitOnCharNotMem _ _ hB]
    simp only [List.filter_cons, List.filter_nil, hpA, hpB, Bool.false_eq_true,
      if_false, if_true]

theorem rainforestProps (tag : Str) (r : Str × Str × Str)
    (htag : ∀ c ∈ tag, isSafeChar c = true)
    (hasin : ∀ c ∈ r.2.1, isSafeChar c = true) :
    amazonHostOk (lowerStr (urlsplitM (rainforestDeal tag r).amazon_link).netloc) = true ∧
    (splitOnChar '&' (urlsplitM (rainforestDeal tag r).amazon_link).query).filter
      (fun pc => startsWithL ("tag".data ++ ['=']) pc) = ["tag".data ++ '=' :: tag] := by
  have hamp : '&' ∉ tag := safeNotMem '&' (by decide) tag htag
  have hh : '#' ∉ tag := safeNotMem '#' (by decide) tag htag
  have hqm : '?' ∉ r.2.1 := safeNotMem '?' (by decide) _ hasin
  have hhm : '#' ∉ r.2.1 := safeNotMem '#' (by decide) _ hasin
  have hQnh : '#' ∉ ("tag".data ++ '=' :: tag : Str) := by
    intro hm
    rcases List.mem_append.mp hm with hm1 | hm2
    · exact absurd hm1 (by decide)
    · rcases List.mem_cons.mp hm2 with hm3 | hm4
      · cases hm3
      · exact hh hm4
  have hEq : (rainforestDeal tag r).amazon_link =
      mkUrl "https".data "www.amazon.com".data ("/dp/".data ++ r.2.1)
        ("tag".data ++ '=' :: tag) none := by
    show "https://www.amazon.com/dp/".data ++ r.2.1 ++ "?tag=".data ++ tag =
      mkUrl "https".data "www.amazon.com".data ("/dp/".data ++ r.2.1)
        ("tag".data ++ '=' :: tag) none
    unfold mkUrl qPart fragTail
    rw [if_neg (show ¬("https".data : Str) = [] by decide),
      if_neg (show ¬("tag".data ++ '=' :: tag : Str) = [] by
        intro hc
        rw [List.append_eq_nil] at hc
        exact absurd hc.1 (by decide))]
    rw [show ("https://www.amazon.com/dp/".data : Str) =
        ("https".data ++ [':']) ++ '/' :: '/' :: ("www.amazon.com".data ++ "/dp/".data)
        from by decide,
      show ("?tag=".data : Str) = '?' :: ("tag".data ++ ['=']) from by decide]
    simp [List.append_assoc]
  have hsplitU : urlsplitM (rainforestDeal tag r).amazon_link =
      ⟨"https".data, "www.amazon.com".data, "/dp/".data ++ r.2.1,
        "tag".data ++ '=' :: tag, []⟩ := by
    rw [hEq]
    refine urlsplitMk _ _ _ _ none
      (Or.inr ⟨⟨'h', ['t', 't', 'p', 's'], by decide, by decide⟩, by decide, by decide⟩)
      (by decide) (by decide) (Or.inr ⟨"dp/".data ++ r.2.1, rfl⟩) ?_ ?_ hQnh
    · intro hm
      rcases List.mem_append.mp hm with hm1 | hm2
      · exact absurd hm1 (by decide)
      · exact hqm hm2
    · intro hm
      rcases List.mem_append.mp hm with hm1 | hm2
      · exact absurd hm1 (by decide)
      · exact hhm hm2
  have hB : '&' ∉ ("tag".data ++ '=' :: tag : Str) := by
    intro hm
    rcases List.mem_append.mp hm with hm1 | hm2
    · exact absurd hm1 (by decide)
    · rcases List.mem_cons.mp hm2 with hm3 | hm4
      · cases hm3
      · exact hamp hm4
  have hpB : startsWithL ("tag".data ++ ['=']) ("tag".data ++ '=' :: tag) = true := by
    rw [startsWithLIff]
    exact ⟨tag, by simp⟩
  constructor
  · rw [hsplitU]
    show amazonHostOk (lowerStr "www.amazon.com".data) = true
    decide
  · rw [hsplitU]
    show (splitOnChar '&' ("tag".data ++ '=' :: tag)).filter
      (fun pc => startsWithL ("tag".data ++ ['=']) pc) = ["tag".data ++ '=' :: tag]
    rw [splitOnCharNotMem _ _ hB]
    simp only [List.filter_cons, List.filter_nil, hpB, if_true]

theorem processDealLink (env : Env) (tag : Str) (e : Entry) (d : Deal)
    (h : processDeal env tag e = some d) :
    (∃ s clean, normalizeAmazonLink env.resolve s tag = Except.ok clean ∧
      d.amazon_link = clean) ∨
    d.amazon_link = buildAmazonSearchLink e.title tag := by
  rcases henv : env.page e.link with _ | pg
  · simp [processDeal, henv] at h
  · rcases hh : pageHref pg with _ | s
    · simp [processDeal, henv, hh] at h
    · by_cases hse : s.isEmpty = true
      · simp [processDeal, henv, hh, hse] at h
      · have hse2 : s.isEmpty = false := by simpa using hse
        rcases hn : normalizeAmazonLink env.resolve s tag with u | clean
        · simp only [processDeal, henv, hh, hse2, Bool.false_eq_true, if_false, hn,
            Option.some.injEq] at h
          right
          rw [← h]
        · simp only [processDeal, henv, hh, hse2, Bool.false_eq_true, if_false, hn,
            Option.some.injEq] at h
          left
          exact ⟨s, clean, hn, by rw [← h]⟩

/-- **C2.** Every Deal in a result returned by `get_amazon_affiliate_links`
has an `amazon_link` whose host belongs to the target Amazon domain (the
`_normalize_amazon_link` host test: contains `.amazon.` or ends in `.a.co`,
which the constructed `www.amazon.com` search/product URLs also satisfy), and
whose query carries the monetization `tag` parameter set exactly to the given
tag (the query pieces starting with `tag=` are exactly `tag=<tag>`), provided
the configured tag is made of URL-safe characters and any Rainforest ASIN is
URL-safe. -/
theorem c2_link_invariant (env : Env) (feed : List Entry) (kw tag : Str) (m : Nat)
    (htag : ∀ c ∈ tag, isSafeChar c = true)
    (hasin : ∀ r, env.rainforest = some r → ∀ c ∈ r.2.1, isSafeChar c = true)
    (d : Deal) (hd : d ∈ (getAmazonAffiliateLinks env feed kw tag m).deals) :
    amazonHostOk (lowerStr (urlsplitM d.amazon_link).netloc) = true ∧
    (splitOnChar '&' (urlsplitM d.amazon_link).query).filter
      (fun pc => startsWithL ("tag".data ++ ['=']) pc) = ["tag".data ++ '=' :: tag] := by
  rcases deal_origin env feed kw tag m d hd with ⟨e, _, hpe⟩ | ⟨r, hr, rfl⟩ | rfl
  · rcases processDealLink env tag e d hpe with ⟨s, clean, hn, hlink⟩ | hlink
    · rw [hlink]
      exact normalizeLinkProps env.resolve s tag clean htag hn
    · rw [hlink]
      exact buildSearchProps e.title tag htag
  · exact rainforestProps tag r htag (hasin r hr)
  · exact buildSearchProps kw tag htag

/-- Witness for C2 at a concrete pipeline run: the empty feed yields the
search-fallback deal, whose link is on `www.amazon.com` and carries
`tag=2025050f-20`. -/
theorem c2_witness :
    amazonHostOk (lowerStr (urlsplitM
      (searchFallbackDeal "ring".data DEFAULT_TAG).amazon_link).netloc) = true ∧
    (splitOnChar '&' (urlsplitM
      (searchFallbackDeal "ring".data DEFAULT_TAG).amazon_link).query).filter
      (fun pc => startsWithL ("tag".data ++ ['=']) pc) =
      ["tag".data ++ '=' :: DEFAULT_TAG] :=
  c2_link_invariant envNull [] "ring".data DEFAULT_TAG 5 (by decide)
    (fun r hr => nomatch hr) (searchFallbackDeal "ring".data DEFAULT_TAG) (by decide)

theorem plusToSpaceId (s : Str) (h : '+' ∉ s) : plusToSpace s = s := by
  induction s with
  | nil => rfl
  | cons c cs ih =>
    have hc : (c == '+') = false := by
      cases hb : c == '+'
      · rfl
      · exact absurd (show '+' ∈ c :: cs from by
          rw [show c = '+' from by simpa using hb] at h ⊢
          exact List.mem_cons_self _ _) h
    show (if c == '+' then ' ' else c) :: plusToSpace cs = c :: cs
    rw [hc]
    simp only [Bool.false_eq_true, if_false]
    rw [ih (fun hm => h (List.mem_cons_of_mem _ hm))]

theorem pyUnquoteConsNe (c : Char) (cs : Str) (hc : c ≠ '%') :
    pyUnquote (c :: cs) = c :: pyUnquote cs := by
  rw [pyUnquote.eq_def]
  split
  · rename_i heq
    exact absurd heq (by simp)
  · rename_i h1 h2 rest heq
    injection heq with he1 he2
    exact absurd he1 hc
  · rename_i c2 rest heq
    injection heq with he1 he2
    rw [he1, he2]

theorem pyUnquoteNoPct (s : Str) (h : '%' ∉ s) : pyUnquote s = s := by
  induction s with
  | nil => rfl
  | cons c cs ih =>
    have hc : c ≠ '%' := fun hce => h (by rw [hce]; exact List.mem_cons_self _ _)
    rw [pyUnquoteConsNe c cs hc, ih (fun hm => h (List.mem_cons_of_mem _ hm))]

theorem pyUnquotePlusSafeId (s : Str) (h : ∀ c ∈ s, isSafeChar c = true) :
    pyUnquotePlus s = s := by
  unfold pyUnquotePlus
  rw [plusToSpaceId s (safeNotMem '+' (by decide) s h),
    pyUnquoteNoPct s (safeNotMem '%' (by decide) s h)]

theorem parsePieceEnc (k v : Str) (hk : ∀ c ∈ k, isSafeChar c = true) (hv : v ≠ [])
    (hvs : ∀ c ∈ v, isSafeChar c = true) :
    parsePiece (quotePlus k ++ '=' :: quotePlus v) = some (k, v) := by
  unfold parsePiece
  rw [if_neg (by
    intro hc
    rw [List.isEmpty_iff] at hc
    exact pieceNeNil k v hc)]
  rw [breakOnFirstAppend '=' _ _ (eqNotMemQuotePlus k)]
  rw [quotePlusSafeId k hk, quotePlusSafeId v hvs]
  show (if List.isEmpty v = true then none
    else some (pyUnquotePlus k, pyUnquotePlus v)) = some (k, v)
  rw [if_neg (by
    intro hc
    rw [List.isEmpty_iff] at hc
    exact hv hc)]
  rw [pyUnquotePlusSafeId k hk, pyUnquotePlusSafeId v hvs]

/-- The flat `(key, value)` field sequence that `urlencode(doseq=True)`
serialises for a parsed dict. -/
def qdFlatten (d : QDict) : List (Str × Str) :=
  d.flatMap (fun kv => kv.2.map (fun v => (kv.1, v)))

theorem filterMapPieces (k : Str) (vs : List Str) (hk : ∀ c ∈ k, isSafeChar c = true)
    (hvs : ∀ v ∈ vs, v ≠ [] ∧ ∀ c ∈ v, isSafeChar c = true) :
    (vs.map (fun v => quotePlus k ++ '=' :: quotePlus v)).filterMap parsePiece =
      vs.map (fun v => (k, v)) := by
  induction vs with
  | nil => rfl
  | cons v vs2 ih =>
    show List.filterMap parsePiece
      ((quotePlus k ++ '=' :: quotePlus v) ::
        vs2.map (fun v => quotePlus k ++ '=' :: quotePlus v)) = (k, v) :: vs2.map _
    rw [List.filterMap_cons,
      parsePieceEnc k v hk (hvs v (List.mem_cons_self _ _)).1
        (hvs v (List.mem_cons_self _ _)).2]
    rw [ih (fun w hw => hvs w (List.mem_cons_of_mem _ hw))]

theorem parseQslEnc (d : QDict)
    (hsafe : ∀ kv ∈ d, (∀ c ∈ kv.1, isSafeChar c = true) ∧
      ∀ v ∈ kv.2, v ≠ [] ∧ ∀ c ∈ v, isSafeChar c = true) :
    (encPieces d).filterMap parsePiece = qdFlatten d := by
  induction d with
  | nil => rfl
  | cons kv rest ih =>
    show (List.filterMap parsePiece
      (kv.2.map (fun v => quotePlus kv.1 ++ '=' :: quotePlus v) ++ encPieces rest)) =
      kv.2.map (fun v => (kv.1, v)) ++ qdFlatten rest
    rw [List.filterMap_append,
      filterMapPieces kv.1 kv.2 (hsafe kv (List.mem_cons_self _ _)).1
        (hsafe kv (List.mem_cons_self _ _)).2,
      ih (fun e he => hsafe e (List.mem_cons_of_mem _ he))]

theorem qsInsertFresh (acc : QDict) (k : Str) (v : Str)
    (h : ∀ kv ∈ acc, kv.1 ≠ k) : qsInsert acc k v = acc ++ [(k, [v])] := by
  induction acc with
  | nil => rfl
  | cons kv rest ih =>
    obtain ⟨k0, vs0⟩ := kv
    show (if k0 = k then (k0, vs0 ++ [v]) :: rest else (k0, vs0) :: qsInsert rest k v) = _
    rw [if_neg (h (k0, vs0) (List.mem_cons_self _ _)),
      ih (fun e he => h e (List.mem_cons_of_mem _ he))]
    rfl

theorem qsInsertAppendLast (acc : QDict) (k : Str) (ws : List Str) (v : Str)
    (h : ∀ kv ∈ acc, kv.1 ≠ k) :
    qsInsert (acc ++ [(k, ws)]) k v = acc ++ [(k, ws ++ [v])] := by
  induction acc with
  | nil =>
    show (if k = k then (k, ws ++ [v]) :: [] else _) = [(k, ws ++ [v])]
    rw [if_pos rfl]
  | cons kv rest ih =>
    obtain ⟨k0, vs0⟩ := kv
    show (if k0 = k then (k0, vs0 ++ [v]) :: (rest ++ [(k, ws)])
      else (k0, vs0) :: qsInsert (rest ++ [(k, ws)]) k v) = _
    rw [if_neg (h (k0, vs0) (List.mem_cons_self _ _)),
      ih (fun e he => h e (List.mem_cons_of_mem _ he))]
    rfl

theorem foldInsertVals (vs : List Str) (acc : QDict) (k : Str) (ws : List Str)
    (h : ∀ kv ∈ acc, kv.1 ≠ k) :
    List.foldl (fun d kv => qsInsert d kv.1 kv.2) (acc ++ [(k, ws)])
      (vs.map (fun v => (k, v))) = acc ++ [(k, ws ++ vs)] := by
  induction vs generalizing ws with
  | nil =>
    show acc ++ [(k, ws)] = acc ++ [(k, ws ++ [])]
    rw [List.append_nil]
  | cons v vs2 ih =>
    show List.foldl (fun d kv => qsInsert d kv.1 kv.2)
      (qsInsert (acc ++ [(k, ws)]) k v) (vs2.map (fun v => (k, v))) = _
    rw [qsInsertAppendLast acc k ws v h, ih (ws ++ [v]), List.append_assoc]
    rfl

theorem foldFlattenGroup (d : QDict) (acc : QDict)
    (hdisj : ∀ kv ∈ acc, ∀ kv2 ∈ d, kv.1 ≠ kv2.1)
    (hp : d.Pairwise (fun a b => a.1 ≠ b.1))
    (hvne : ∀ kv ∈ d, kv.2 ≠ []) :
    List.foldl (fun d kv => qsInsert d kv.1 kv.2) acc (qdFlatten d) = acc ++ d := by
  induction d generalizing acc with
  | nil =>
    show acc = acc ++ []
    rw [List.append_nil]
  | cons kv rest ih =>
    obtain ⟨k, vs⟩ := kv
    rw [List.pairwise_cons] at hp
    have hvsne : vs ≠ [] := hvne (k, vs) (List.mem_cons_self _ _)
    obtain ⟨v, vs2, rfl⟩ : ∃ v vs2, vs = v :: vs2 := by
      cases vs with
      | nil => exact absurd rfl hvsne
      | cons v vs2 => exact ⟨v, vs2, rfl⟩
    have hheadfree : ∀ e ∈ acc, e.1 ≠ k :=
      fun e he => hdisj e he (k, v :: vs2) (List.mem_cons_self _ _)
    show List.foldl (fun d kv => qsInsert d kv.1 kv.2) acc
      (((v :: vs2).map (fun w => (k, w))) ++ qdFlatten rest) = _
    rw [List.foldl_append]
    have hstep1 : List.foldl (fun d kv => qsInsert d kv.1 kv.2) acc
        ((v :: vs2).map (fun w => (k, w))) = acc ++ [(k, v :: vs2)] := by
      show List.foldl (fun d kv => qsInsert d kv.1 kv.2) (qsInsert acc k v)
        (vs2.map (fun w => (k, w))) = _
      rw [qsInsertFresh acc k v hheadfree, foldInsertVals vs2 acc k [v] hheadfree]
      rfl
    rw [hstep1]
    have hdisj2 : ∀ e ∈ acc ++ [(k, v :: vs2)], ∀ e2 ∈ rest, e.1 ≠ e2.1 := by
      intro e he e2 he2
      rcases List.mem_append.mp he with h1 | h2
      · exact hdisj e h1 e2 (List.mem_cons_of_mem _ he2)
      · rw [List.mem_singleton.mp h2]
        exact hp.1 e2 he2
    rw [ih (acc ++ [(k, v :: vs2)]) hdisj2 hp.2
      (fun e he => hvne e (List.mem_cons_of_mem _ he)), List.append_assoc]
    rfl

theorem parseQsUrlencode (d : QDict)
    (hp : d.Pairwise (fun a b => a.1 ≠ b.1))
    (hsafe : ∀ kv ∈ d, (∀ c ∈ kv.1, isSafeChar c = true) ∧ kv.2 ≠ [] ∧
      ∀ v ∈ kv.2, v ≠ [] ∧ ∀ c ∈ v, isSafeChar c = true) :
    parseQs (urlencodeM d) = d := by
  cases hd : d with
  | nil => rfl
  | cons kv rest =>
    rw [← hd]
    have hvne : ∀ e ∈ d, e.2 ≠ [] := fun e he => (hsafe e he).2.1
    have henil : encPieces d ≠ [] := by
      rw [hd]
      show kv.2.map (fun v => quotePlus kv.1 ++ '=' :: quotePlus v) ++ encPieces rest ≠ []
      intro hc
      rw [List.append_eq_nil, List.map_eq_nil_iff] at hc
      exact hvne kv (by rw [hd]; exact List.mem_cons_self _ _) hc.1
    have hamps : ∀ p ∈ encPieces d, '&' ∉ p := by
      intro p hp2
      rcases encPiecesMem _ p hp2 with ⟨e, _, v, _, rfl⟩
      exact pieceNotMem '&' e.1 v (by decide) ampNotMemQuotePlus
    show ((splitOnChar '&' (urlencodeM d)).filterMap parsePiece).foldl
      (fun d kv => qsInsert d kv.1 kv.2) [] = d
    rw [urlencodeEqPieces, splitOnCharIntercalate '&' _ henil hamps,
      parseQslEnc d (fun e he => ⟨(hsafe e he).1, (hsafe e he).2.2⟩),
      foldFlattenGroup d [] (by simp) hp hvne]
    rfl

theorem qsInsertValsNe (d : QDict) (k : Str) (v : Str)
    (h : ∀ kv ∈ d, kv.2 ≠ []) : ∀ kv ∈ qsInsert d k v, kv.2 ≠ [] := by
  induction d with
  | nil =>
    intro kv hkv
    rw [List.mem_singleton.mp hkv]
    simp
  | cons kv0 rest ih =>
    obtain ⟨k0, vs0⟩ := kv0
    intro kv hkv
    by_cases hk : k0 = k
    · rw [show qsInsert ((k0, vs0) :: rest) k v = (k0, vs0 ++ [v]) :: rest from by
        show (if k0 = k then _ else _) = _
        rw [if_pos hk]] at hkv
      rcases List.mem_cons.mp hkv with rfl | hm
      · simp
      · exact h kv (List.mem_cons_of_mem _ hm)
    · rw [show qsInsert ((k0, vs0) :: rest) k v = (k0, vs0) :: qsInsert rest k v from by
        show (if k0 = k then _ else _) = _
        rw [if_neg hk]] at hkv
      rcases List.mem_cons.mp hkv with rfl | hm
      · exact h (k0, vs0) (List.mem_cons_self _ _)
      · exact ih (fun e he => h e (List.mem_cons_of_mem _ he)) kv hm

theorem foldInsertValsNe (l : List (Str × Str)) (d : QDict)
    (h : ∀ kv ∈ d, kv.2 ≠ []) :
    ∀ kv ∈ l.foldl (fun d kv => qsInsert d kv.1 kv.2) d, kv.2 ≠ [] := by
  induction l generalizing d with
  | nil => exact h
  | cons p ps ih => exact ih (qsInsert d p.1 p.2) (qsInsertValsNe d p.1 p.2 h)

theorem parseQsValsNe (s : Str) : ∀ kv ∈ parseQs s, kv.2 ≠ [] :=
  foldInsertValsNe (parseQsl s) [] (by simp)

theorem popFoldId (junks : List Str) (d : QDict) (h : ∀ kv ∈ d, kv.1 ∉ junks) :
    junks.foldl qsPop d = d := by
  induction junks with
  | nil => rfl
  | cons j js ih =>
    show js.foldl qsPop (qsPop d j) = d
    have hpop : qsPop d j = d := by
      unfold qsPop
      rw [List.filter_eq_self]
      intro kv hkv
      simp only [decide_eq_true_eq]
      intro hc
      exact h kv hkv (by rw [hc]; exact List.mem_cons_self _ _)
    rw [hpop]
    exact ih (fun kv hkv hm => h kv hkv (List.mem_cons_of_mem _ hm))

theorem qsSetQsSet (d : QDict) (k : Str) (v : List Str) :
    qsSet (qsSet d k v) k v = qsSet d k v := by
  induction d with
  | nil =>
    show (if k = k then (k, v) :: [] else _) = [(k, v)]
    rw [if_pos rfl]
  | cons kv rest ih =>
    obtain ⟨k0, vs0⟩ := kv
    by_cases hk : k0 = k
    · rw [show qsSet ((k0, vs0) :: rest) k v = (k0, v) :: rest from by
        show (if k0 = k then _ else _) = _
        rw [if_pos hk]]
      show (if k0 = k then (k0, v) :: rest else _) = (k0, v) :: rest
      rw [if_pos hk]
    · rw [show qsSet ((k0, vs0) :: rest) k v = (k0, vs0) :: qsSet rest k v from by
        show (if k0 = k then _ else _) = _
        rw [if_neg hk]]
      show (if k0 = k then _ else (k0, vs0) :: qsSet (qsSet rest k v) k v) =
        (k0, vs0) :: qsSet rest k v
      rw [if_neg hk, ih]

theorem normalizeNoJunk (res : Str → Str) (raw tag clean : Str)
    (h : normalizeAmazonLink res raw tag = Except.ok clean) :
    ∀ j ∈ JUNK_PARAMS, (splitOnChar '&' (urlsplitM clean).query).filter
      (fun pc => startsWithL (j ++ ['=']) pc) = [] := by
  obtain ⟨f2, _, hsplit, _⟩ := normalizeCleanSplit res raw tag clean h
  intro j hj
  have hQfacts := urlencodeQueryFacts
    (qsSet (JUNK_PARAMS.foldl qsPop
      (parseQs (urlsplitM (res (extractEmbeddedUrl raw))).query)) "tag".data [tag])
    "tag".data [tag] (qsSetSelfMem _ _ _) (by simp)
  obtain ⟨hpne, _, _, _, _, _⟩ := hQfacts
  have hamps : ∀ p ∈ encPieces (qsSet (JUNK_PARAMS.foldl qsPop
      (parseQs (urlsplitM (res (extractEmbeddedUrl raw))).query)) "tag".data [tag]),
      '&' ∉ p := by
    intro p hp
    rcases encPiecesMem _ p hp with ⟨kv, _, v, _, rfl⟩
    exact pieceNotMem '&' kv.1 v (by decide) ampNotMemQuotePlus
  have hjsafe : ∀ c ∈ j, isSafeChar c = true :=
    (show ∀ j2 ∈ JUNK_PARAMS, ∀ c ∈ j2, isSafeChar c = true by decide) j hj
  have hkeys : ∀ e ∈ qsSet (JUNK_PARAMS.foldl qsPop
      (parseQs (urlsplitM (res (extractEmbeddedUrl raw))).query)) "tag".data [tag],
      e.1 ≠ j := by
    intro e he
    rcases qsSetMem _ _ _ e he with hm | hm
    · intro hc
      exact (popFoldMem JUNK_PARAMS _ e hm).2 (by rw [hc]; exact hj)
    · intro hc
      apply (show ("tag".data : Str) ∉ JUNK_PARAMS by decide)
      have h1 : e.1 = "tag".data := by rw [hm]
      rw [← h1, hc]
      exact hj
  rw [hsplit]
  show (splitOnChar '&' (urlencodeM (qsSet (JUNK_PARAMS.foldl qsPop
      (parseQs (urlsplitM (res (extractEmbeddedUrl raw))).query)) "tag".data
      [tag]))).filter (fun pc => startsWithL (j ++ ['=']) pc) = []
  rw [urlencodeEqPieces, splitOnCharIntercalate '&' _ hpne hamps,
    encPiecesFilterNone _ j hjsafe hkeys]

theorem normalizeFixpoint (clean S N P Q tag : Str) (d : QDict)
    (hsplit2 : urlsplitM clean = ⟨S, N, P, Q, []⟩)
    (hmk : clean = mkUrl S N P Q none)
    (hok : amazonHostOk (lowerStr N) = true)
    (hnr : isRedirectHost (lowerStr N) = false)
    (hd : parseQs Q = d)
    (hQ : urlencodeM d = Q)
    (hpop : JUNK_PARAMS.foldl qsPop d = d)
    (hset : qsSet d "tag".data [tag] = d)
    (hN : N ≠ [])
    (hps : P = [] ∨ ∃ t, P = '/' :: t)
    (hlast : ∃ x, Q.getLast? = some x ∧ (x == '&' || x == '?') = false)
    (hQne : Q ≠ []) :
    normalizeAmazonLink (fun u => u) clean tag = Except.ok clean := by
  have hA : extractEmbeddedUrl clean = clean := by
    unfold extractEmbeddedUrl
    simp only [hsplit2]
    rw [hnr]
    simp
  unfold normalizeAmazonLink
  simp only [hA, hsplit2]
  rw [hd, hpop, hset, hQ, hok]
  simp only [if_true]
  have hun : urlunsplitM ⟨S, N, P, Q, []⟩ = mkUrl S N P Q none := by
    have h2 := urlunsplitEqMk ⟨S, N, P, Q, []⟩ hN hps
    rw [if_pos rfl] at h2
    exact h2
  rw [hun, mkUrlReassocNone S N P Q hQne]
  obtain ⟨x, hx1, hx2⟩ := hlast
  have hglast : (((if S = [] then [] else S ++ [':']) ++
      '/' :: '/' :: (N ++ P)) ++ '?' :: Q).getLast? = some x := by
    rw [List.getLast?_append_of_ne_nil _ (by simp)]
    cases hQ2 : Q with
    | nil => exact absurd hQ2 hQne
    | cons y ys =>
      rw [List.getLast?_cons_cons, ← hQ2]
      exact hx1
  rw [dropTrailingLast _ _ x hglast hx2, ← mkUrlReassocNone S N P Q hQne, ← hmk]

theorem normalizeIdem (res : Str → Str) (raw tag clean : Str)
    (htag : ∀ c ∈ tag, isSafeChar c = true) (htagne : tag ≠ [])
    (h : normalizeAmazonLink res raw tag = Except.ok clean)
    (hnr : isRedirectHost (lowerStr (urlsplitM (res (extractEmbeddedUrl raw))).netloc)
      = false)
    (hfrag : (urlsplitM (res (extractEmbeddedUrl raw))).fragment = [])
    (hdict : ∀ kv ∈ parseQs (urlsplitM (res (extractEmbeddedUrl raw))).query,
      (∀ c ∈ kv.1, isSafeChar c = true) ∧
        ∀ v ∈ kv.2, v ≠ [] ∧ ∀ c ∈ v, isSafeChar c = true) :
    normalizeAmazonLink (fun u => u) clean tag = Except.ok clean := by
  obtain ⟨hok, _⟩ := normalizeOkInv res raw tag clean h
  obtain ⟨f2, hmk, hsplit2, hf2⟩ := normalizeCleanSplit res raw tag clean h
  rw [hf2 hfrag] at hmk hsplit2
  simp only [Option.getD_none] at hsplit2
  have hpair : (qsSet (JUNK_PARAMS.foldl qsPop
      (parseQs (urlsplitM (res (extractEmbeddedUrl raw))).query)) "tag".data
      [tag]).Pairwise (fun a b => a.1 ≠ b.1) :=
    qsSetPairwise _ _ _ (popFoldPairwise _ _ (parseQsPairwise _))
  have hsafeAll : ∀ kv ∈ qsSet (JUNK_PARAMS.foldl qsPop
      (parseQs (urlsplitM (res (extractEmbeddedUrl raw))).query)) "tag".data [tag],
      (∀ c ∈ kv.1, isSafeChar c = true) ∧ kv.2 ≠ [] ∧
        ∀ v ∈ kv.2, v ≠ [] ∧ ∀ c ∈ v, isSafeChar c = true := by
    intro e he
    rcases qsSetMem _ _ _ e he with hm | hm
    · have h2 := popFoldMem JUNK_PARAMS _ e hm
      have h3 := hdict e h2.1
      exact ⟨h3.1, parseQsValsNe _ e h2.1, h3.2⟩
    · rw [hm]
      refine ⟨show ∀ c ∈ ("tag".data : Str), isSafeChar c = true from by decide,
        by simp, ?_⟩
      intro v hv
      rw [List.mem_singleton.mp hv]
      exact ⟨htagne, htag⟩
  have hkeysNotJunk : ∀ e ∈ qsSet (JUNK_PARAMS.foldl qsPop
      (parseQs (urlsplitM (res (extractEmbeddedUrl raw))).query)) "tag".data [tag],
      e.1 ∉ JUNK_PARAMS := by
    intro e he
    rcases qsSetMem _ _ _ e he with hm | hm
    · exact (popFoldMem JUNK_PARAMS _ e hm).2
    · intro hc
      apply (show ("tag".data : Str) ∉ JUNK_PARAMS by decide)
      have h1 : e.1 = "tag".data := by rw [hm]
      rw [← h1]
      exact hc
  have hN : (urlsplitM (res (extractEmbeddedUrl raw))).netloc ≠ [] :=
    lowerStrNeNil _ (amazonHostOkNeNil _ hok)
  have hps : (urlsplitM (res (extractEmbeddedUrl raw))).pathsec = [] ∨
      ∃ t, (urlsplitM (res (extractEmbeddedUrl raw))).pathsec = '/' :: t :=
    rawPathsecShape _ hN
  have hQfacts := urlencodeQueryFacts
    (qsSet (JUNK_PARAMS.foldl qsPop
      (parseQs (urlsplitM (res (extractEmbeddedUrl raw))).query)) "tag".data [tag])
    "tag".data [tag] (qsSetSelfMem _ _ _) (by simp)
  obtain ⟨_, hQne, _, x, hx1, hx2⟩ := hQfacts
  exact normalizeFixpoint clean
    (urlsplitM (res (extractEmbeddedUrl raw))).scheme
    (urlsplitM (res (extractEmbeddedUrl raw))).netloc
    (urlsplitM (res (extractEmbeddedUrl raw))).pathsec
    (urlencodeM (qsSet (JUNK_PARAMS.foldl qsPop
      (parseQs (urlsplitM (res (extractEmbeddedUrl raw))).query)) "tag".data [tag]))
    tag
    (qsSet (JUNK_PARAMS.foldl qsPop
      (parseQs (urlsplitM (res (extractEmbeddedUrl raw))).query)) "tag".data [tag])
    hsplit2 hmk hok hnr
    (parseQsUrlencode _ hpair hsafeAll) rfl
    (popFoldId _ _ hkeysNotJunk) (qsSetQsSet _ _ _)
    hN hps ⟨x, hx1, hx2⟩ hQne

/-- **C8 (counterexample).** The URL `https://www.amazon.com/dp/B000000000?x=`
satisfies every premise of the claim -- host on the Amazon domain, no
denylisted tracking parameter, not a redirect wrapper, no trailing `&` or
`?` -- yet `_normalize_amazon_link` does not return the same URL with the tag
parameter set: `parse_qs(keep_blank_values=False)` silently drops the
blank-valued `x` parameter, so the output is not the input-plus-tag. -/
theorem c8_counterexample :
    amazonHostOk (lowerStr
      (urlsplitM "https://www.amazon.com/dp/B000000000?x=".data).netloc) = true ∧
    (∀ j ∈ JUNK_PARAMS,
      (splitOnChar '&'
        (urlsplitM "https://www.amazon.com/dp/B000000000?x=".data).query).filter
        (fun pc => startsWithL (j ++ ['=']) pc) = []) ∧
    isRedirectHost (lowerStr
      (urlsplitM "https://www.amazon.com/dp/B000000000?x=".data).netloc) = false ∧
    dropTrailing (fun c => c == '&' || c == '?')
      "https://www.amazon.com/dp/B000000000?x=".data =
      "https://www.amazon.com/dp/B000000000?x=".data ∧
    normalizeAmazonLink (fun u => u) "https://www.amazon.com/dp/B000000000?x=".data
      DEFAULT_TAG =
      Except.ok "https://www.amazon.com/dp/B000000000?tag=2025050f-20".data ∧
    normalizeAmazonLink (fun u => u) "https://www.amazon.com/dp/B000000000?x=".data
      DEFAULT_TAG ≠
      Except.ok "https://www.amazon.com/dp/B000000000?x=&tag=2025050f-20".data := by
  refine ⟨by decide, by decide, by decide, by decide, by decide, ?_⟩
  intro hc
  rw [show normalizeAmazonLink (fun u => u)
      "https://www.amazon.com/dp/B000000000?x=".data DEFAULT_TAG =
      Except.ok "https://www.amazon.com/dp/B000000000?tag=2025050f-20".data
    from by decide] at hc
  injection hc with hc2
  exact absurd hc2 (by decide)

/-- **C8 (amended).** Every successful `_normalize_amazon_link` output is free
of the denylisted tracking parameters (no query piece starts with
`ascsubtag=`, `ref=`, `psc=`, `crid=`, `qid=` or `sr=`), and normalization is
idempotent on its own outputs: re-normalizing the output with the identity
resolver returns it unchanged, provided the resolved source URL was not on a
redirect-wrapper host, carried no fragment, and its surviving query
parameters are non-blank and URL-safe (the tag itself being non-empty and
URL-safe).  The spec's stronger round-trip -- input returned unchanged except
for the tag -- fails on blank-valued parameters (see the counterexample). -/
theorem c8_amended_idempotent (res : Str → Str) (raw tag clean : Str)
    (htag : ∀ c ∈ tag, isSafeChar c = true) (htagne : tag ≠ [])
    (h : normalizeAmazonLink res raw tag = Except.ok clean) :
    (∀ j ∈ JUNK_PARAMS, (splitOnChar '&' (urlsplitM clean).query).filter
      (fun pc => startsWithL (j ++ ['=']) pc) = []) ∧
    (isRedirectHost (lowerStr (urlsplitM (res (extractEmbeddedUrl raw))).netloc) = false →
      (urlsplitM (res (extractEmbeddedUrl raw))).fragment = [] →
      (∀ kv ∈ parseQs (urlsplitM (res (extractEmbeddedUrl raw))).query,
        (∀ c ∈ kv.1, isSafeChar c = true) ∧
          ∀ v ∈ kv.2, v ≠ [] ∧ ∀ c ∈ v, isSafeChar c = true) →
      normalizeAmazonLink (fun u => u) clean tag = Except.ok clean) :=
  ⟨normalizeNoJunk res raw tag clean h,
    fun hnr hfrag hdict => normalizeIdem res raw tag clean htag htagne h hnr hfrag hdict⟩

/-- Witness for the amended C8 at a concrete input: normalizing
`https://www.amazon.com/dp/B000000000?x=1&ref=sr` strips `ref` and appends the
tag, the output carries no junk parameter, and re-normalizing the output is a
no-op. -/
theorem c8_witness :
    (∀ j ∈ JUNK_PARAMS,
      (splitOnChar '&' (urlsplitM
        "https://www.amazon.com/dp/B000000000?x=1&tag=2025050f-20".data).query).filter
        (fun pc => startsWithL (j ++ ['=']) pc) = []) ∧
    normalizeAmazonLink (fun u => u)
      "https://www.amazon.com/dp/B000000000?x=1&tag=2025050f-20".data DEFAULT_TAG =
      Except.ok "https://www.amazon.com/dp/B000000000?x=1&tag=2025050f-20".data := by
  have h0 : normalizeAmazonLink (fun u => u)
      "https://www.amazon.com/dp/B000000000?x=1&ref=sr".data DEFAULT_TAG =
      Except.ok "https://www.amazon.com/dp/B000000000?x=1&tag=2025050f-20".data := by
    decide
  have h := c8_amended_idempotent (fun u => u)
    "https://www.amazon.com/dp/B000000000?x=1&ref=sr".data DEFAULT_TAG
    "https://www.amazon.com/dp/B000000000?x=1&tag=2025050f-20".data
    (by decide) (by decide) h0
  exact ⟨h.1, h.2 (by decide) (by decide) (by decide)⟩
